import Mathlib

/-!
# Window-based down-sampling with outlier-aware weights

A shallow embedding of `src/数据处理.cpp` (`calculateWeightedAverage`,
`compareByDistance`, `calculateWeights`, `simplifyData` and the length guard
of `main`) together with theorems about it.

Modelling decisions.

* `double` values are exact rationals (`ℚ`): no rounding, no NaN, no infinity.
  Statements about `calculateWeights`, `calculateWeightedAverage` and
  `simplifyData` are therefore statements over exact arithmetic.
* The definitions whose name ends in `Double` repeat lines 11-73 with every
  arithmetic operation rounded by `roundDouble` (IEEE 754 binary64, round to
  nearest, ties to even, each operation rounded on its own).  They show where
  a statement that holds over exact arithmetic fails for the compiled code.
* `size_t` values are natural numbers; the products and sums of indices the
  code forms stay below twice the input length, so no wrap-around is modelled.
* `std::vector` is `List`.  Reading or slicing a vector outside its bounds is
  undefined behaviour in C++; `simplifyData` returns `none` in that case.
* `std::sort` is specified by the C++ standard only up to its postcondition
  (the output is a permutation of the input and no later element compares
  before an earlier one).  `StdSort` bundles an arbitrary function with that
  postcondition; theorems quantified over `StdSort` hold for every conforming
  implementation, whatever it does with ties.  `insertionStdSort` is one
  executable instance.
* `std::ceil(values.size() * 0.2)` and
  `std::ceil(static_cast<double>(totalPoints) / desiredPoints)` are the exact
  ceilings `⌈n * (2/10)⌉` and `⌈n / k⌉`.  For `desiredPoints = 0` the C++
  quotient is infinite and its conversion to `size_t` is unspecified; the
  embedding yields `0` there, and the value is never used because the loop
  body does not run.
-/

namespace DataProcessing

/-- Lines 11-19: the loop accumulates `weightedSum` and `totalWeight` over the
indices of `values`; the result is their quotient when `totalWeight > 0` and
`0` otherwise.  The callers pass `weights` of the length of `values`; an index
beyond `weights`, which C++ leaves undefined, reads `0` here. -/
def calculateWeightedAverage (values weights : List ℚ) : ℚ :=
  let acc := (List.range values.length).foldl
    (fun (acc : ℚ × ℚ) i =>
      (acc.1 + values.getD i 0 * weights.getD i 0, acc.2 + weights.getD i 0))
    (0, 0)
  if acc.2 > 0 then acc.1 / acc.2 else 0

/-- Lines 22-26: a data point with its index and its offset. -/
structure DataPoint where
  index : Nat
  value : ℚ
  distance : ℚ
  deriving DecidableEq

/-- Lines 29-31: the comparator, descending by distance. -/
def compareByDistance (a b : DataPoint) : Bool :=
  decide (a.distance > b.distance)

/-- A conforming `std::sort` called with `compareByDistance`: the output is a
permutation of the input, and no element compares before one that precedes
it. -/
structure StdSort where
  sort : List DataPoint → List DataPoint
  perm : ∀ l, (sort l).Perm l
  sorted : ∀ l, (sort l).Pairwise (fun a b => compareByDistance b a = false)

/-- Insertion sort by non-increasing distance, an executable `StdSort`. -/
def insertionStdSort : StdSort where
  sort l := l.insertionSort (fun a b => a.distance ≥ b.distance)
  perm l := List.perm_insertionSort _ l
  sorted l := by
    have htotal : IsTotal DataPoint (fun a b => a.distance ≥ b.distance) :=
      ⟨fun a b => le_total b.distance a.distance⟩
    have htrans : IsTrans DataPoint (fun a b => a.distance ≥ b.distance) :=
      ⟨fun _ _ _ hab hbc => le_trans hbc hab⟩
    have h := List.sorted_insertionSort (fun a b : DataPoint => a.distance ≥ b.distance) l
    refine List.Pairwise.imp ?_ h
    intro a b hab
    simpa [compareByDistance] using hab

/-- Lines 43-51: the inner loop sums `values[j]` over `j ≠ i`, counts the
terms, and divides. -/
def avgWithoutCurrent (values : List ℚ) (i : Nat) : ℚ :=
  let acc := (List.range values.length).foldl
    (fun (acc : ℚ × Nat) j =>
      if i ≠ j then (acc.1 + values.getD j 0, acc.2 + 1) else acc)
    (0, 0)
  acc.1 / (acc.2 : ℚ)

/-- Line 52: the offset of `values[i]` from the mean of the other values. -/
def distance (values : List ℚ) (i : Nat) : ℚ :=
  |values.getD i 0 - avgWithoutCurrent values i|

/-- Lines 41-54: one data point per index, in index order. -/
def makeDataPoints (values : List ℚ) : List DataPoint :=
  (List.range values.length).map fun i =>
    { index := i, value := values.getD i 0, distance := distance values i }

/-- Line 60: `ceil(n * 0.2)`. -/
def topPercentile (n : Nat) : Nat :=
  ⌈(n : ℚ) * (2 / 10)⌉₊

/-- Lines 61-65: `weights[idx] += 1.0` for the index of each selected point. -/
def applyBonus (weights : List ℚ) (top : List DataPoint) : List ℚ :=
  top.foldl (fun w p => w.set p.index (w.getD p.index 0 + 1)) weights

/-- Lines 34-73. -/
def calculateWeights (S : StdSort) (values : List ℚ) : List ℚ :=
  let weights := List.replicate values.length (1 : ℚ)
  if values.length ≤ 1 then weights
  else
    let dataPoints := S.sort (makeDataPoints values)
    let weights := applyBonus weights (dataPoints.take (topPercentile values.length))
    let sumWeights := weights.sum
    weights.map (fun w => w / sumWeights)

/-- The range constructor `std::vector(first + startIdx, first + endIdx)`:
defined only when `startIdx ≤ endIdx ≤ size`. -/
def slice? {α : Type} (xs : List α) (startIdx endIdx : Nat) : Option (List α) :=
  if startIdx ≤ endIdx ∧ endIdx ≤ xs.length then
    some ((xs.drop startIdx).take (endIdx - startIdx))
  else none

/-- Line 85: `ceil(totalPoints / desiredPoints)`. -/
def windowSizeOf (totalPoints desiredPoints : Nat) : Nat :=
  ⌈(totalPoints : ℚ) / (desiredPoints : ℚ)⌉₊

/-- Lines 93-108, the body of the loop after the `break` test: the output
point of the window `[startIdx, endIdx)`, or `none` when a slice or the
timestamp access is out of range. -/
def processWindow (S : StdSort) (timestamps : List String) (powerValues : List ℚ)
    (startIdx endIdx : Nat) : Option (String × ℚ) := do
  let windowValues ← slice? powerValues startIdx endIdx
  let _windowTimestamps ← slice? timestamps startIdx endIdx
  let weights := calculateWeights S windowValues
  let weightedAvg := calculateWeightedAverage windowValues weights
  let midIndex := startIdx + (endIdx - startIdx) / 2
  let midTimestamp ← timestamps[midIndex]?
  pure (midTimestamp, weightedAvg)

/-- Lines 87-109: the loop `for (i; i < desiredPoints; ++i)`, entered at
counter `i` with `remaining = desiredPoints - i` iterations left and the
output accumulated so far. -/
def simplifyLoop (S : StdSort) (timestamps : List String) (powerValues : List ℚ)
    (windowSize : Nat) :
    (remaining : Nat) → (i : Nat) → List (String × ℚ) → Option (List (String × ℚ))
  | 0, _, simplifiedData => some simplifiedData
  | remaining + 1, i, simplifiedData =>
    let totalPoints := powerValues.length
    let startIdx := i * windowSize
    let endIdx := min (startIdx + windowSize) totalPoints
    if startIdx ≥ totalPoints then some simplifiedData
    else
      match processWindow S timestamps powerValues startIdx endIdx with
      | none => none
      | some point =>
        simplifyLoop S timestamps powerValues windowSize remaining (i + 1)
          (simplifiedData ++ [point])

/-- Lines 76-112. -/
def simplifyData (S : StdSort) (timestamps : List String) (powerValues : List ℚ)
    (desiredPoints : Nat) : Option (List (String × ℚ)) :=
  if powerValues.isEmpty then some []
  else
    simplifyLoop S timestamps powerValues
      (windowSizeOf powerValues.length desiredPoints) desiredPoints 0 []

/-- Line 150. -/
def DESIRED_POINTS : Nat := 100

/-- Lines 143-151 of `main`: the length guard in front of the call of
`simplifyData`; `Except.error` stands for the message on `std::cerr` followed
by `return 1`. -/
def mainReduce (S : StdSort) (timestamps : List String) (powerValues : List ℚ) :
    Except String (Option (List (String × ℚ))) :=
  if timestamps.length ≠ powerValues.length then
    Except.error "Error: Timestamp and power value counts do not match."
  else
    Except.ok (simplifyData S timestamps powerValues DESIRED_POINTS)

/-- The windows `(startIdx, endIdx)` that the loop of `simplifyData` reaches
past its `break` test: the same counter, bounds and exit conditions as
`simplifyLoop`, recording the bounds instead of the output point. -/
def windowBounds (totalPoints windowSize : Nat) : (remaining : Nat) → (i : Nat) → List (Nat × Nat)
  | 0, _ => []
  | remaining + 1, i =>
    let startIdx := i * windowSize
    let endIdx := min (startIdx + windowSize) totalPoints
    if startIdx ≥ totalPoints then []
    else (startIdx, endIdx) :: windowBounds totalPoints windowSize remaining (i + 1)

/-! ## Auxiliary definitions used in the statements -/

/-- Lines 88-89: the bounds of window `j`. -/
def windowAt (totalPoints windowSize j : Nat) : Nat × Nat :=
  (j * windowSize, min (j * windowSize + windowSize) totalPoints)

/-- The values of a window, as the range constructor of line 94 copies them. -/
def windowSlice (powerValues : List ℚ) (p : Nat × Nat) : List ℚ :=
  (powerValues.drop p.1).take (p.2 - p.1)

/-- The windows that `simplifyData` processes on an input of `totalPoints`
values. -/
def windowsOf (totalPoints desiredPoints : Nat) : List (Nat × Nat) :=
  windowBounds totalPoints (windowSizeOf totalPoints desiredPoints) desiredPoints 0

/-- The output point of a window whose bounds are in range (lines 94-108). -/
def windowPoint (S : StdSort) (timestamps : List String) (powerValues : List ℚ)
    (p : Nat × Nat) : String × ℚ :=
  (timestamps.getD (p.1 + (p.2 - p.1) / 2) "",
    calculateWeightedAverage (windowSlice powerValues p)
      (calculateWeights S (windowSlice powerValues p)))

/-- The number of windows, `ceil(n / ceil(n / k))`. -/
def numWindows (totalPoints desiredPoints : Nat) : Nat :=
  windowSizeOf totalPoints (windowSizeOf totalPoints desiredPoints)

/-- The indices visited by the bonus loop of lines 61-65, in visiting order. -/
def bonusIndices (S : StdSort) (values : List ℚ) : List Nat :=
  ((S.sort (makeDataPoints values)).take (topPercentile values.length)).map DataPoint.index

/-- The number of indices of the window whose distance is strictly larger than
that of index `i`: index `i` is among the `k` largest distances when this
number is below `k`. -/
def distanceRank (values : List ℚ) (i : Nat) : Nat :=
  (List.range values.length).countP (fun j => decide (distance values j > distance values i))

/-- Line 104: the index of the representative timestamp of a window. -/
def midIndexOf (p : Nat × Nat) : Nat :=
  p.1 + (p.2 - p.1) / 2

/-- The smallest value of a window (`0` for the empty window). -/
def windowMin (values : List ℚ) : ℚ :=
  values.foldl min (values.headD 0)

/-- The largest value of a window (`0` for the empty window). -/
def windowMax (values : List ℚ) : ℚ :=
  values.foldl max (values.headD 0)

/-- The leave-one-out mean in the formulation of the design notes: the sum of
the whole window is computed once and the mean without index `i` is
`(total - values[i]) / (n - 1)`. -/
def avgWithoutCurrentFast (values : List ℚ) (i : Nat) : ℚ :=
  let total := values.sum
  (total - values.getD i 0) / ((values.length - 1 : Nat) : ℚ)

/-- The offset of `values[i]` computed from `avgWithoutCurrentFast`. -/
def distanceFast (values : List ℚ) (i : Nat) : ℚ :=
  |values.getD i 0 - avgWithoutCurrentFast values i|

/-- The data points of lines 41-54 with the offsets of `distanceFast`. -/
def makeDataPointsFast (values : List ℚ) : List DataPoint :=
  (List.range values.length).map fun i =>
    { index := i, value := values.getD i 0, distance := distanceFast values i }

/-- The function `calculateWeights` with the leave-one-out means of
`avgWithoutCurrentFast`; everything else is as in lines 34-73. -/
def calculateWeightsFast (S : StdSort) (values : List ℚ) : List ℚ :=
  let weights := List.replicate values.length (1 : ℚ)
  if values.length ≤ 1 then weights
  else
    let dataPoints := S.sort (makeDataPointsFast values)
    let weights := applyBonus weights (dataPoints.take (topPercentile values.length))
    let sumWeights := weights.sum
    weights.map (fun w => w / sumWeights)

/-! ## The same functions in `double` arithmetic -/

/-- The power `2 ^ e` for an integer exponent. -/
def pow2 (e : ℤ) : ℚ :=
  if 0 ≤ e then ((2 ^ e.toNat : Nat) : ℚ) else 1 / ((2 ^ (-e).toNat : Nat) : ℚ)

/-- Halving with a step budget: the number of times `n` can be halved before
it drops below 2, at most `fuel` times. -/
def halvings : (fuel : Nat) → (n : Nat) → Nat
  | 0, _ => 0
  | fuel + 1, n => if n < 2 then 0 else halvings fuel (n / 2) + 1

/-- The integer part of the binary logarithm of a positive natural number. -/
def floorLog2 (n : Nat) : Nat :=
  halvings n n

/-- The binary exponent of a positive rational `q`: the integer `e` with
`2 ^ e ≤ q < 2 ^ (e + 1)`. -/
def binaryExponent (q : ℚ) : ℤ :=
  let e0 : ℤ := (floorLog2 q.num.natAbs : ℤ) - (floorLog2 q.den : ℤ)
  if pow2 e0 ≤ q then e0 else e0 - 1

/-- The `double` nearest to a rational: IEEE 754 binary64 rounding to nearest,
ties to even, with a 53-bit significand.  The exponent range is not bounded, so
overflow and subnormal numbers are not modelled. -/
def roundDouble (q : ℚ) : ℚ :=
  if q = 0 then 0
  else
    let ulp := pow2 (binaryExponent |q| - 52)
    let m := |q| / ulp
    let f : ℤ := ⌊m⌋
    let r := m - (f : ℚ)
    let n : ℤ := if r < 1 / 2 then f else if r > 1 / 2 then f + 1
      else if f % 2 = 0 then f else f + 1
    (if q < 0 then -1 else 1) * (n : ℚ) * ulp

/-- Lines 11-19 in `double` arithmetic: every product, sum and quotient is
rounded. -/
def calculateWeightedAverageDouble (values weights : List ℚ) : ℚ :=
  let acc := (List.range values.length).foldl
    (fun (acc : ℚ × ℚ) i =>
      (roundDouble (acc.1 + roundDouble (values.getD i 0 * weights.getD i 0)),
        roundDouble (acc.2 + weights.getD i 0)))
    (0, 0)
  if acc.2 > 0 then roundDouble (acc.1 / acc.2) else 0

/-- Lines 43-51 in `double` arithmetic. -/
def avgWithoutCurrentDouble (values : List ℚ) (i : Nat) : ℚ :=
  let acc := (List.range values.length).foldl
    (fun (acc : ℚ × Nat) j =>
      if i ≠ j then (roundDouble (acc.1 + values.getD j 0), acc.2 + 1) else acc)
    (0, 0)
  roundDouble (acc.1 / roundDouble (acc.2 : ℚ))

/-- Line 52 in `double` arithmetic. -/
def distanceDouble (values : List ℚ) (i : Nat) : ℚ :=
  |roundDouble (values.getD i 0 - avgWithoutCurrentDouble values i)|

/-- Lines 41-54 in `double` arithmetic. -/
def makeDataPointsDouble (values : List ℚ) : List DataPoint :=
  (List.range values.length).map fun i =>
    { index := i, value := values.getD i 0, distance := distanceDouble values i }

/-- Line 60 in `double` arithmetic; the literal `0.2` is the double nearest to
`2/10`. -/
def topPercentileDouble (n : Nat) : Nat :=
  ⌈roundDouble (roundDouble (n : ℚ) * roundDouble (2 / 10))⌉₊

/-- Lines 61-65 in `double` arithmetic. -/
def applyBonusDouble (weights : List ℚ) (top : List DataPoint) : List ℚ :=
  top.foldl (fun w p => w.set p.index (roundDouble (w.getD p.index 0 + 1))) weights

/-- Lines 34-73 in `double` arithmetic. -/
def calculateWeightsDouble (S : StdSort) (values : List ℚ) : List ℚ :=
  let weights := List.replicate values.length (1 : ℚ)
  if values.length ≤ 1 then weights
  else
    let dataPoints := S.sort (makeDataPointsDouble values)
    let weights := applyBonusDouble weights (dataPoints.take (topPercentileDouble values.length))
    let sumWeights := weights.foldl (fun s w => roundDouble (s + w)) 0
    weights.map (fun w => roundDouble (w / sumWeights))

/-! ## Ceilings -/

theorem windowSizeOf_eq (n k : Nat) (hk : 0 < k) : windowSizeOf n k = (n + k - 1) / k := by
  unfold windowSizeOf
  apply eq_of_forall_ge_iff
  intro c
  have hk' : (0 : ℚ) < (k : ℚ) := by exact_mod_cast hk
  rw [Nat.ceil_le, div_le_iff₀ hk', ← Nat.lt_succ_iff, Nat.div_lt_iff_lt_mul hk]
  have h1 : ((n : ℚ) ≤ (c : ℚ) * (k : ℚ)) ↔ n ≤ c * k := by exact_mod_cast Iff.rfl
  rw [h1, Nat.succ_mul]
  omega

theorem topPercentile_eq (n : Nat) : topPercentile n = (n + 4) / 5 := by
  unfold topPercentile
  apply eq_of_forall_ge_iff
  intro c
  rw [Nat.ceil_le, ← Nat.lt_succ_iff, Nat.div_lt_iff_lt_mul (by norm_num : 0 < 5)]
  have h1 : ((n : ℚ) * (2 / 10) ≤ (c : ℚ)) ↔ n ≤ c * 5 := by
    constructor
    · intro h
      have h2 : (n : ℚ) ≤ (c : ℚ) * 5 := by linarith
      exact_mod_cast h2
    · intro h
      have h2 : (n : ℚ) ≤ (c : ℚ) * 5 := by exact_mod_cast h
      linarith
  rw [h1, Nat.succ_mul]
  omega

theorem topPercentile_le (n : Nat) : topPercentile n ≤ n := by
  rw [topPercentile_eq]; omega

theorem topPercentile_pos (n : Nat) (hn : 0 < n) : 0 < topPercentile n := by
  rw [topPercentile_eq]; omega

theorem windowSizeOf_pos (n k : Nat) (hn : 0 < n) (hk : 0 < k) : 0 < windowSizeOf n k := by
  rw [windowSizeOf_eq n k hk]
  apply Nat.div_pos <;> omega

theorem mul_lt_iff_lt_ceilDiv (n w j : Nat) (hw : 0 < w) : j * w < n ↔ j < (n + w - 1) / w := by
  rw [Nat.lt_iff_add_one_le, Nat.lt_iff_add_one_le, Nat.le_div_iff_mul_le hw, Nat.add_mul]
  omega

/-- The number of windows: the least `m` with `m * w ≥ n`. -/
theorem windowSizeOf_mul_ge (n k : Nat) (hk : 0 < k) : n ≤ k * windowSizeOf n k := by
  rw [windowSizeOf_eq n k hk]
  have h := Nat.div_add_mod (n + k - 1) k
  have h2 := Nat.mod_lt (n + k - 1) hk
  generalize (n + k - 1) / k = q at *
  generalize (n + k - 1) % k = r at *
  generalize k * q = p at *
  omega

/-! ## The loop of `simplifyData` -/

theorem windowBounds_eq (n w : Nat) (hw : 0 < w) (rem i : Nat) :
    windowBounds n w rem i =
      (List.range' i (min rem ((n + w - 1) / w - i))).map (windowAt n w) := by
  induction rem generalizing i with
  | zero => simp [windowBounds]
  | succ rem ih =>
    unfold windowBounds
    have hiff := mul_lt_iff_lt_ceilDiv n w i hw
    by_cases hbreak : i * w ≥ n
    · have hi : (n + w - 1) / w - i = 0 := by
        have : ¬ i < (n + w - 1) / w := fun h => absurd (hiff.mpr h) (by omega)
        omega
      simp [hbreak, hi]
    · have hi : i < (n + w - 1) / w := hiff.mp (by omega)
      have hmin : min (rem + 1) ((n + w - 1) / w - i) =
          min rem ((n + w - 1) / w - (i + 1)) + 1 := by omega
      simp only [hbreak, if_false, hmin, List.range'_succ, List.map_cons, ih (i + 1)]
      rfl

theorem simplifyLoop_eq (S : StdSort) (ts : List String) (vals : List ℚ) (w rem i : Nat)
    (acc : List (String × ℚ)) :
    simplifyLoop S ts vals w rem i acc =
      ((windowBounds vals.length w rem i).mapM
        (fun p => processWindow S ts vals p.1 p.2)).map (fun out => acc ++ out) := by
  induction rem generalizing i acc with
  | zero => simp [simplifyLoop, windowBounds, List.mapM.loop]
  | succ rem ih =>
    unfold simplifyLoop windowBounds
    by_cases hbreak : i * w ≥ vals.length
    · simp [hbreak, List.mapM.loop]
    · simp only [hbreak, if_false, List.mapM_cons]
      cases hp : processWindow S ts vals (i * w) (min (i * w + w) vals.length) with
      | none => simp
      | some point =>
        simp only [ih]
        cases hrest : List.mapM (fun p => processWindow S ts vals p.1 p.2)
            (windowBounds vals.length w rem (i + 1)) with
        | none => simp
        | some rest => simp

theorem simplifyData_eq_mapM (S : StdSort) (ts : List String) (vals : List ℚ) (k : Nat) :
    simplifyData S ts vals k =
      (windowBounds vals.length (windowSizeOf vals.length k) k 0).mapM
        (fun p => processWindow S ts vals p.1 p.2) := by
  unfold simplifyData
  cases vals with
  | nil => cases k <;> simp [windowBounds, List.mapM.loop]
  | cons v vs =>
    rw [simplifyLoop_eq]
    cases List.mapM (fun p => processWindow S ts (v :: vs) p.1 p.2)
      (windowBounds (v :: vs).length (windowSizeOf (v :: vs).length k) k 0) <;> simp

theorem processWindow_eq (S : StdSort) (ts : List String) (vals : List ℚ) (s e : Nat)
    (hse : s < e) (hev : e ≤ vals.length) (het : e ≤ ts.length) :
    processWindow S ts vals s e =
      some (ts.getD (s + (e - s) / 2) "",
        calculateWeightedAverage (windowSlice vals (s, e))
          (calculateWeights S (windowSlice vals (s, e)))) := by
  have hmid : s + (e - s) / 2 < ts.length := by omega
  have hse' : s ≤ e := by omega
  simp [processWindow, slice?, windowSlice, hse', hev, het, List.getD_eq_getElem?_getD,
    List.getElem?_eq_getElem hmid]

theorem numWindows_eq (n k : Nat) (hn : 0 < n) (hk : 0 < k) :
    numWindows n k = (n + windowSizeOf n k - 1) / windowSizeOf n k :=
  windowSizeOf_eq n _ (windowSizeOf_pos n k hn hk)

theorem numWindows_zero (k : Nat) : numWindows 0 k = 0 := by
  simp [numWindows, windowSizeOf]

theorem numWindows_le (n k : Nat) (hk : 0 < k) : numWindows n k ≤ k := by
  rcases Nat.eq_zero_or_pos n with hn | hn
  · subst hn; rw [numWindows_zero]; exact Nat.zero_le _
  · rw [numWindows_eq n k hn hk]
    have hw := windowSizeOf_pos n k hn hk
    have hge := windowSizeOf_mul_ge n k hk
    rw [← Nat.lt_succ_iff, Nat.div_lt_iff_lt_mul hw, Nat.succ_mul]
    omega

theorem lt_numWindows_iff (n k j : Nat) (hn : 0 < n) (hk : 0 < k) :
    j < numWindows n k ↔ j * windowSizeOf n k < n := by
  rw [numWindows_eq n k hn hk]
  exact (mul_lt_iff_lt_ceilDiv n _ j (windowSizeOf_pos n k hn hk)).symm

theorem windowsOf_eq (n k : Nat) (hk : 0 < k) :
    windowsOf n k = (List.range (numWindows n k)).map (windowAt n (windowSizeOf n k)) := by
  rcases Nat.eq_zero_or_pos n with hn | hn
  · subst hn
    rw [numWindows_zero]
    obtain ⟨k, rfl⟩ : ∃ k', k = k' + 1 := ⟨k - 1, by omega⟩
    simp [windowsOf, windowBounds]
  · have hw := windowSizeOf_pos n k hn hk
    have hle := numWindows_le n k hk
    rw [numWindows_eq n k hn hk] at hle ⊢
    unfold windowsOf
    rw [windowBounds_eq n _ hw, List.range_eq_range', Nat.sub_zero, Nat.min_eq_right hle]

theorem length_windowsOf (n k : Nat) (hk : 0 < k) : (windowsOf n k).length = numWindows n k := by
  simp [windowsOf_eq n k hk]

theorem mem_windowsOf (n k : Nat) (hk : 0 < k) (p : Nat × Nat) (hp : p ∈ windowsOf n k) :
    p.1 < p.2 ∧ p.2 ≤ n := by
  rw [windowsOf_eq n k hk, List.mem_map] at hp
  obtain ⟨j, hj, rfl⟩ := hp
  rw [List.mem_range] at hj
  rcases Nat.eq_zero_or_pos n with hn | hn
  · subst hn; rw [numWindows_zero] at hj; omega
  · have hw := windowSizeOf_pos n k hn hk
    have hlt := (lt_numWindows_iff n k j hn hk).mp hj
    simp only [windowAt]
    omega

theorem mapM_eq_some_map {α β : Type} (f : α → Option β) (g : α → β) (l : List α)
    (h : ∀ x ∈ l, f x = some (g x)) : l.mapM f = some (l.map g) := by
  induction l with
  | nil => rfl
  | cons a l ih =>
    rw [List.mapM_cons, h a (List.mem_cons_self a l),
      ih (fun x hx => h x (List.mem_cons_of_mem a hx))]
    rfl

theorem simplifyData_eq (S : StdSort) (ts : List String) (vals : List ℚ) (k : Nat)
    (hk : 0 < k) (hlen : vals.length ≤ ts.length) :
    simplifyData S ts vals k =
      some ((windowsOf vals.length k).map (windowPoint S ts vals)) := by
  rw [simplifyData_eq_mapM]
  apply mapM_eq_some_map
  intro p hp
  obtain ⟨h1, h2⟩ := mem_windowsOf vals.length k hk p hp
  exact processWindow_eq S ts vals p.1 p.2 h1 h2 (le_trans h2 hlen)

/-! ## Sums over index ranges -/

theorem foldl_pair_sum (f g : Nat → ℚ) (l : List Nat) (a b : ℚ) :
    l.foldl (fun (acc : ℚ × ℚ) i => (acc.1 + f i, acc.2 + g i)) (a, b) =
      (a + (l.map f).sum, b + (l.map g).sum) := by
  induction l generalizing a b with
  | nil => simp
  | cons x l ih => simp [ih, add_assoc]

theorem map_getD_range (l : List ℚ) : (List.range l.length).map (fun i => l.getD i 0) = l := by
  apply List.ext_getElem
  · simp
  · intro i h1 h2
    simp [List.getD_eq_getElem?_getD, List.getElem?_eq_getElem h2]

theorem map_mul_getD_range (values weights : List ℚ) (h : weights.length = values.length) :
    (List.range values.length).map (fun i => values.getD i 0 * weights.getD i 0) =
      List.zipWith (fun v w => v * w) values weights := by
  apply List.ext_getElem
  · simp [h]
  · intro i h1 h2
    have hv : i < values.length := by simpa using h1
    have hw : i < weights.length := by omega
    simp [List.getD_eq_getElem?_getD, List.getElem?_eq_getElem hv, List.getElem?_eq_getElem hw]

theorem calculateWeightedAverage_eq (values weights : List ℚ)
    (h : weights.length = values.length) :
    calculateWeightedAverage values weights =
      if weights.sum > 0 then
        (List.zipWith (fun v w => v * w) values weights).sum / weights.sum
      else 0 := by
  unfold calculateWeightedAverage
  have hw : (List.range values.length).map (fun i => weights.getD i 0) = weights := by
    rw [← h]; exact map_getD_range weights
  simp only [foldl_pair_sum (fun i => values.getD i 0 * weights.getD i 0)
    (fun i => weights.getD i 0), zero_add, map_mul_getD_range values weights h, hw]

theorem sum_map_range_eq_finset (f : Nat → ℚ) (n : Nat) :
    ((List.range n).map f).sum = ∑ i in Finset.range n, f i := by
  induction n with
  | zero => simp
  | succ n ih => simp [List.range_succ, Finset.sum_range_succ, ih]

theorem sum_count_range (idxs : List Nat) (n : Nat) (h : ∀ x ∈ idxs, x < n) :
    ((List.range n).map (fun i => (idxs.count i : ℚ))).sum = idxs.length := by
  rw [sum_map_range_eq_finset]
  induction idxs with
  | nil => simp
  | cons x xs ih =>
    have hx : x < n := h x (List.mem_cons_self x xs)
    have ih' := ih (fun y hy => h y (List.mem_cons_of_mem x hy))
    have hsplit : ∀ i, (((x :: xs).count i : ℕ) : ℚ) =
        (xs.count i : ℚ) + (if x = i then 1 else 0) := by
      intro i
      rw [List.count_cons]
      by_cases hxi : x = i <;> simp [hxi]
    simp only [hsplit, Finset.sum_add_distrib, ih', Finset.sum_ite_eq, Finset.mem_range, hx,
      if_true, List.length_cons]
    push_cast
    ring

/-! ## The weights -/

theorem applyBonus_cons (w : List ℚ) (p : DataPoint) (top : List DataPoint) :
    applyBonus w (p :: top) = applyBonus (w.set p.index (w.getD p.index 0 + 1)) top := rfl

theorem applyBonus_eq (w : List ℚ) (top : List DataPoint) :
    applyBonus w top =
      (List.range w.length).map
        (fun i => w.getD i 0 + ((top.map DataPoint.index).count i : ℚ)) := by
  induction top generalizing w with
  | nil => simpa [applyBonus] using (map_getD_range w).symm
  | cons p top ih =>
    rw [applyBonus_cons, ih, List.length_set]
    apply List.map_congr_left
    intro i hi
    rw [List.mem_range] at hi
    simp only [List.map_cons, List.count_cons, List.getD_eq_getElem?_getD, List.getElem?_set]
    by_cases hpi : p.index = i
    · subst hpi
      simp [hi, List.getElem?_eq_getElem hi]
      ring
    · simp [hpi]

theorem map_index_makeDataPoints (values : List ℚ) :
    (makeDataPoints values).map DataPoint.index = List.range values.length := by
  simp [makeDataPoints, Function.comp_def]

theorem perm_sorted_indices (S : StdSort) (values : List ℚ) :
    ((S.sort (makeDataPoints values)).map DataPoint.index).Perm (List.range values.length) := by
  rw [← map_index_makeDataPoints]
  exact (S.perm _).map _

theorem bonusIndices_eq_take (S : StdSort) (values : List ℚ) :
    bonusIndices S values =
      ((S.sort (makeDataPoints values)).map DataPoint.index).take (topPercentile values.length) := by
  simp [bonusIndices, List.map_take]

theorem bonusIndices_nodup (S : StdSort) (values : List ℚ) : (bonusIndices S values).Nodup := by
  rw [bonusIndices_eq_take]
  have h : ((S.sort (makeDataPoints values)).map DataPoint.index).Nodup :=
    (perm_sorted_indices S values).nodup_iff.mpr (List.nodup_range _)
  exact h.sublist (List.take_sublist _ _)

theorem bonusIndices_lt (S : StdSort) (values : List ℚ) (i : Nat)
    (hi : i ∈ bonusIndices S values) : i < values.length := by
  rw [bonusIndices_eq_take] at hi
  have h := (perm_sorted_indices S values).subset (List.mem_of_mem_take hi)
  simpa using h

theorem length_bonusIndices (S : StdSort) (values : List ℚ) :
    (bonusIndices S values).length = topPercentile values.length := by
  rw [bonusIndices_eq_take, List.length_take, List.length_map, (S.perm _).length_eq]
  simp [makeDataPoints, topPercentile_le]

theorem calculateWeights_of_le_one (S : StdSort) (values : List ℚ) (hn : values.length ≤ 1) :
    calculateWeights S values = List.replicate values.length 1 := by
  simp [calculateWeights, hn]

theorem applyBonus_replicate (S : StdSort) (values : List ℚ) :
    applyBonus (List.replicate values.length (1 : ℚ))
        ((S.sort (makeDataPoints values)).take (topPercentile values.length)) =
      (List.range values.length).map
        (fun i => (1 : ℚ) + ((bonusIndices S values).count i : ℚ)) := by
  rw [applyBonus_eq, List.length_replicate]
  apply List.map_congr_left
  intro i hi
  rw [List.mem_range] at hi
  simp [bonusIndices, List.getD_eq_getElem?_getD, hi]

theorem sum_applyBonus_replicate (S : StdSort) (values : List ℚ) :
    ((List.range values.length).map
        (fun i => (1 : ℚ) + ((bonusIndices S values).count i : ℚ))).sum =
      (values.length : ℚ) + (topPercentile values.length : ℚ) := by
  rw [sum_map_range_eq_finset, Finset.sum_add_distrib, ← sum_map_range_eq_finset,
    ← sum_map_range_eq_finset, sum_count_range _ _ (bonusIndices_lt S values),
    length_bonusIndices]
  simp

theorem calculateWeights_eq (S : StdSort) (values : List ℚ) (hn : 2 ≤ values.length) :
    calculateWeights S values =
      (List.range values.length).map (fun i =>
        (if i ∈ bonusIndices S values then (2 : ℚ) else 1) /
          ((values.length : ℚ) + (topPercentile values.length : ℚ))) := by
  have hn' : ¬ values.length ≤ 1 := by omega
  simp only [calculateWeights, hn', if_false, applyBonus_replicate, sum_applyBonus_replicate,
    List.map_map]
  apply List.map_congr_left
  intro i _
  have hnd := bonusIndices_nodup S values
  by_cases hi : i ∈ bonusIndices S values
  · simp [hi, List.count_eq_one_of_mem hnd hi]
    norm_num
  · simp [hi, List.count_eq_zero_of_not_mem hi]

theorem length_calculateWeights (S : StdSort) (values : List ℚ) :
    (calculateWeights S values).length = values.length := by
  by_cases hn : values.length ≤ 1
  · simp [calculateWeights_of_le_one S values hn]
  · simp [calculateWeights_eq S values (by omega)]

theorem weight_denominator_pos (n : Nat) (hn : 0 < n) :
    (0 : ℚ) < (n : ℚ) + (topPercentile n : ℚ) := by
  have h1 : (0 : ℚ) < (n : ℚ) := by exact_mod_cast hn
  have h2 : (0 : ℚ) ≤ (topPercentile n : ℚ) := by exact_mod_cast Nat.zero_le _
  linarith

theorem sum_map_div_const (l : List ℚ) (c : ℚ) : (l.map (fun w => w / c)).sum = l.sum / c := by
  induction l with
  | nil => simp
  | cons a l ih => simp [ih, add_div]

theorem sum_calculateWeights (S : StdSort) (values : List ℚ) (hn : 1 ≤ values.length) :
    (calculateWeights S values).sum = 1 := by
  by_cases h1 : values.length ≤ 1
  · have h : values.length = 1 := by omega
    simp [calculateWeights_of_le_one S values h1, h]
  · have hn' : ¬ values.length ≤ 1 := h1
    have hpos := weight_denominator_pos values.length (by omega)
    simp only [calculateWeights, hn', if_false, applyBonus_replicate, sum_applyBonus_replicate]
    rw [sum_map_div_const, sum_applyBonus_replicate]
    exact div_self (ne_of_gt hpos)

/-! ## Single-element windows -/

theorem windowSlice_singleton (vals : List ℚ) (j : Nat) (hj : j < vals.length) :
    windowSlice vals (j, j + 1) = [vals.getD j 0] := by
  unfold windowSlice
  rw [List.drop_eq_getElem_cons hj, List.getD_eq_getElem?_getD, List.getElem?_eq_getElem hj]
  simp only [Nat.add_sub_cancel_left]
  rfl

theorem calculateWeightedAverage_singleton (S : StdSort) (v : ℚ) :
    calculateWeightedAverage [v] (calculateWeights S [v]) = v := by
  have hw : calculateWeights S [v] = [1] := by
    rw [calculateWeights_of_le_one S [v] (by simp)]; rfl
  rw [hw, calculateWeightedAverage_eq [v] [1] rfl]
  simp

theorem windowSizeOf_of_le (n k : Nat) (hn : 0 < n) (hnk : n ≤ k) : windowSizeOf n k = 1 := by
  rw [windowSizeOf_eq n k (by omega)]
  apply Nat.div_eq_of_lt_le <;> omega

theorem windowSizeOf_one (n : Nat) : windowSizeOf n 1 = n := by
  rw [windowSizeOf_eq n 1 (by omega)]
  simp

/-! ## Timestamps beyond the values are never read -/

theorem windowPoint_take (S : StdSort) (ts : List String) (vals : List ℚ) (p : Nat × Nat)
    (h1 : p.1 < p.2) (h2 : p.2 ≤ vals.length) :
    windowPoint S (ts.take vals.length) vals p = windowPoint S ts vals p := by
  have hmid : p.1 + (p.2 - p.1) / 2 < vals.length := by omega
  simp [windowPoint, List.getD_eq_getElem?_getD, List.getElem?_take, hmid]

theorem simplifyData_take (S : StdSort) (ts : List String) (vals : List ℚ) (k : Nat)
    (hk : 0 < k) (hlen : vals.length ≤ ts.length) :
    simplifyData S ts vals k = simplifyData S (ts.take vals.length) vals k := by
  rw [simplifyData_eq S ts vals k hk hlen,
    simplifyData_eq S (ts.take vals.length) vals k hk (by simp [hlen])]
  congr 1
  apply List.map_congr_left
  intro p hp
  obtain ⟨h1, h2⟩ := mem_windowsOf vals.length k hk p hp
  exact (windowPoint_take S ts vals p h1 h2).symm

theorem simplifyData_zero (S : StdSort) (ts : List String) (vals : List ℚ) :
    simplifyData S ts vals 0 = some [] := by
  unfold simplifyData
  split <;> simp [simplifyLoop]

/-! ## Weight normalisation, output length, rejected inputs, idempotence -/

/-- C1: for every non-empty window the weights returned by `calculateWeights`
sum to exactly 1, whatever the conforming sort does. -/
theorem C1_weights_sum_to_one (S : StdSort) (values : List ℚ) (hn : 1 ≤ values.length) :
    (calculateWeights S values).sum = 1 :=
  sum_calculateWeights S values hn

theorem C1_weights_sum_to_one_witness :
    1 ≤ ([100, 7, 8, 9, 10] : List ℚ).length ∧
      (calculateWeights insertionStdSort [100, 7, 8, 9, 10]).sum = 1 :=
  ⟨by decide, C1_weights_sum_to_one insertionStdSort [100, 7, 8, 9, 10] (by decide)⟩

/-- C2: for equal-length inputs and `desiredPoints = k > 0`, `simplifyData`
returns a sequence of at most `k` points; for non-empty values its length is
`ceil(n / windowSize)` with `windowSize = ceil(n / k)`. -/
theorem C2_output_length (S : StdSort) (timestamps : List String) (values : List ℚ) (k : Nat)
    (hlen : timestamps.length = values.length) (hk : 0 < k) :
    ∃ out, simplifyData S timestamps values k = some out ∧ out.length ≤ k ∧
      (values ≠ [] →
        out.length =
          ⌈(values.length : ℚ) / ((⌈(values.length : ℚ) / (k : ℚ)⌉₊ : Nat) : ℚ)⌉₊) := by
  refine ⟨_, simplifyData_eq S timestamps values k hk (le_of_eq hlen.symm), ?_, ?_⟩
  · rw [List.length_map, length_windowsOf _ _ hk]
    exact numWindows_le _ _ hk
  · intro _
    rw [List.length_map, length_windowsOf _ _ hk]
    rfl

theorem C2_output_length_witness :
    ((["a", "b", "c", "d", "e"] : List String).length = ([1, 2, 3, 4, 5] : List ℚ).length ∧
      0 < 4) ∧
    ∃ out, simplifyData insertionStdSort ["a", "b", "c", "d", "e"] [1, 2, 3, 4, 5] 4 = some out ∧
      out.length ≤ 4 ∧
      (([1, 2, 3, 4, 5] : List ℚ) ≠ [] →
        out.length =
          ⌈((([1, 2, 3, 4, 5] : List ℚ).length : Nat) : ℚ) /
            ((⌈((([1, 2, 3, 4, 5] : List ℚ).length : Nat) : ℚ) / ((4 : Nat) : ℚ)⌉₊ : Nat) : ℚ)⌉₊) :=
  ⟨by decide,
    C2_output_length insertionStdSort ["a", "b", "c", "d", "e"] [1, 2, 3, 4, 5] 4 (by decide)
      (by decide)⟩

/-- C3, counterexample: with two timestamps and one value (`k = 1`)
`simplifyData` signals nothing and returns a result. -/
theorem C3_counterexample :
    (["a", "b"] : List String).length ≠ ([1] : List ℚ).length ∧
      simplifyData insertionStdSort ["a", "b"] [1] 1 = some [("a", 1)] := by
  decide!

/-- C3, amended: a length mismatch is rejected by the guard of `main`, before
`simplifyData` is called; `simplifyData` itself has no length check, and when
there are more timestamps than values it returns the result it returns for the
first `len(values)` timestamps. -/
theorem C3_mismatch_rejected_by_main (S : StdSort) (timestamps : List String)
    (values : List ℚ) (k : Nat) (hk : 0 < k) (hne : timestamps.length ≠ values.length) :
    mainReduce S timestamps values =
        Except.error "Error: Timestamp and power value counts do not match." ∧
      (values.length < timestamps.length →
        ∃ out, simplifyData S timestamps values k = some out ∧
          simplifyData S (timestamps.take values.length) values k = some out) := by
  refine ⟨by simp [mainReduce, hne], fun hlt => ?_⟩
  refine ⟨_, simplifyData_eq S timestamps values k hk (le_of_lt hlt), ?_⟩
  rw [← simplifyData_take S timestamps values k hk (le_of_lt hlt)]
  exact simplifyData_eq S timestamps values k hk (le_of_lt hlt)

theorem C3_mismatch_rejected_by_main_witness :
    (0 < 1 ∧ (["a", "b"] : List String).length ≠ ([1] : List ℚ).length) ∧
    mainReduce insertionStdSort ["a", "b"] [1] =
        Except.error "Error: Timestamp and power value counts do not match." ∧
      (([1] : List ℚ).length < (["a", "b"] : List String).length →
        ∃ out, simplifyData insertionStdSort ["a", "b"] [1] 1 = some out ∧
          simplifyData insertionStdSort ((["a", "b"] : List String).take ([1] : List ℚ).length)
            [1] 1 = some out) :=
  ⟨by decide,
    C3_mismatch_rejected_by_main insertionStdSort ["a", "b"] [1] 1 (by decide) (by decide)⟩

/-- C4, counterexample: with `desiredPoints = 0` the empty input and a
one-sample input both come back as the empty sequence, with no error. -/
theorem C4_counterexample :
    simplifyData insertionStdSort [] [] 0 = some [] ∧
      simplifyData insertionStdSort ["a"] [1] 0 = some [] := by
  decide!

/-- C4, amended: `simplifyData` called with `desiredPoints = 0` signals no
error; it returns the empty sequence for every input. -/
theorem C4_zero_points_returns_empty (S : StdSort) (timestamps : List String)
    (values : List ℚ) : simplifyData S timestamps values 0 = some [] :=
  simplifyData_zero S timestamps values

/-- C5: for equal-length sequences of length `n ≤ k`, `k > 0`, `simplifyData`
returns the input pairs, in order. -/
theorem C5_idempotent (S : StdSort) (timestamps : List String) (values : List ℚ) (k : Nat)
    (hlen : timestamps.length = values.length) (hk : 0 < k) (hnk : values.length ≤ k) :
    simplifyData S timestamps values k = some (timestamps.zip values) := by
  rw [simplifyData_eq S timestamps values k hk (le_of_eq hlen.symm), windowsOf_eq _ _ hk]
  congr 1
  rcases Nat.eq_zero_or_pos values.length with hn | hn
  · have hv : values = [] := List.length_eq_zero.mp hn
    subst hv
    simp [numWindows_zero]
  · have hw : windowSizeOf values.length k = 1 := windowSizeOf_of_le _ _ hn hnk
    have hm : numWindows values.length k = values.length := by
      unfold numWindows; rw [hw, windowSizeOf_one]
    rw [hw, hm]
    apply List.ext_getElem
    · simp [hlen]
    · intro j h1 h2
      have hj : j < values.length := by simpa using h1
      have hjt : j < timestamps.length := by omega
      have hwin : windowAt values.length 1 j = (j, j + 1) := by
        simp only [windowAt, Nat.mul_one]
        congr 1
        omega
      simp only [List.getElem_map, List.getElem_range, hwin, windowPoint,
        windowSlice_singleton values j hj, calculateWeightedAverage_singleton,
        List.getElem_zip, Nat.add_sub_cancel_left]
      simp [List.getD_eq_getElem?_getD, List.getElem?_eq_getElem hj,
        List.getElem?_eq_getElem hjt]

theorem C5_idempotent_witness :
    ((["a", "b", "c"] : List String).length = ([4, 9, 2] : List ℚ).length ∧ 0 < 5 ∧
      ([4, 9, 2] : List ℚ).length ≤ 5) ∧
    simplifyData insertionStdSort ["a", "b", "c"] [4, 9, 2] 5 =
      some [("a", 4), ("b", 9), ("c", 2)] :=
  ⟨by decide,
    C5_idempotent insertionStdSort ["a", "b", "c"] [4, 9, 2] 5 (by decide) (by decide)
      (by decide)⟩

/-! ## Counting the bonus indices -/

theorem countP_mem_take (L : List Nat) (k : Nat) (hnd : L.Nodup) :
    L.countP (fun i => decide (i ∈ L.take k)) = (L.take k).length := by
  have hsplit : L.countP (fun i => decide (i ∈ L.take k)) =
      (L.take k).countP (fun i => decide (i ∈ L.take k)) +
        (L.drop k).countP (fun i => decide (i ∈ L.take k)) := by
    rw [← List.countP_append, List.take_append_drop]
  have hnd' : (L.take k ++ L.drop k).Nodup := by rwa [List.take_append_drop]
  obtain ⟨_, _, hdisj⟩ := List.nodup_append.mp hnd'
  have h1 : (L.take k).countP (fun i => decide (i ∈ L.take k)) = (L.take k).length :=
    List.countP_eq_length.mpr (fun a ha => by simpa using ha)
  have h2 : (L.drop k).countP (fun i => decide (i ∈ L.take k)) = 0 :=
    List.countP_eq_zero.mpr (fun a ha => by simpa using fun h => hdisj h ha)
  rw [hsplit, h1, h2, Nat.add_zero]

theorem countP_mem_bonusIndices (S : StdSort) (values : List ℚ) :
    (List.range values.length).countP (fun i => decide (i ∈ bonusIndices S values)) =
      topPercentile values.length := by
  have hperm := perm_sorted_indices S values
  rw [← hperm.countP_eq, bonusIndices_eq_take,
    countP_mem_take _ _ (hperm.nodup_iff.mpr (List.nodup_range _)),
    ← bonusIndices_eq_take, length_bonusIndices]

theorem count_bonus_map (S : StdSort) (values : List ℚ) (a b : ℚ) (hab : a ≠ b) :
    ((List.range values.length).map
        (fun i => if i ∈ bonusIndices S values then a else b)).count a =
        topPercentile values.length ∧
      ((List.range values.length).map
        (fun i => if i ∈ bonusIndices S values then a else b)).count b =
        values.length - topPercentile values.length := by
  have hk := countP_mem_bonusIndices S values
  have hlen := List.length_eq_countP_add_countP
    (fun i => decide (i ∈ bonusIndices S values)) (List.range values.length)
  rw [hk, List.length_range] at hlen
  constructor
  · rw [List.count_eq_countP, List.countP_map, ← hk]
    apply List.countP_congr
    intro i _
    by_cases hi : i ∈ bonusIndices S values <;> simp [hi, Ne.symm hab]
  · have hb : ((List.range values.length).map
        (fun i => if i ∈ bonusIndices S values then a else b)).count b =
        (List.range values.length).countP
          (fun i => decide ¬ (decide (i ∈ bonusIndices S values) = true)) := by
      rw [List.count_eq_countP, List.countP_map]
      apply List.countP_congr
      intro i _
      by_cases hi : i ∈ bonusIndices S values <;> simp [hi, hab]
    rw [hb]
    omega

theorem applyBonus_replicate_ite (S : StdSort) (values : List ℚ) :
    applyBonus (List.replicate values.length (1 : ℚ))
        ((S.sort (makeDataPoints values)).take (topPercentile values.length)) =
      (List.range values.length).map
        (fun i => if i ∈ bonusIndices S values then (2 : ℚ) else 1) := by
  rw [applyBonus_replicate]
  apply List.map_congr_left
  intro i _
  have hnd := bonusIndices_nodup S values
  by_cases hi : i ∈ bonusIndices S values
  · simp [hi, List.count_eq_one_of_mem hnd hi]
    norm_num
  · simp [hi, List.count_eq_zero_of_not_mem hi]

theorem calculateWeights_eq_ite (S : StdSort) (values : List ℚ) (hn : 2 ≤ values.length) :
    calculateWeights S values =
      (List.range values.length).map (fun i =>
        if i ∈ bonusIndices S values then
          (2 : ℚ) / ((values.length : ℚ) + (topPercentile values.length : ℚ))
        else 1 / ((values.length : ℚ) + (topPercentile values.length : ℚ))) := by
  rw [calculateWeights_eq S values hn]
  apply List.map_congr_left
  intro i _
  split_ifs <;> rfl

/-- C6: for a window of `n ≥ 2` values and `k = ceil(0.2 * n)`, the bonus loop
leaves exactly `k` weights at 2 and `n - k` at 1, so exactly `k` entries of
`calculateWeights` equal `2 / (n + k)` and the other `n - k` equal
`1 / (n + k)`; no assumption is made on ties, the statement holds for every
conforming sort. -/
theorem C6_bonus_count (S : StdSort) (values : List ℚ) (k : Nat)
    (hn : 2 ≤ values.length) (hk : k = ⌈(2 / 10 : ℚ) * (values.length : ℚ)⌉₊) :
    ((applyBonus (List.replicate values.length 1)
          ((S.sort (makeDataPoints values)).take k)).count 2 = k ∧
      (applyBonus (List.replicate values.length 1)
          ((S.sort (makeDataPoints values)).take k)).count 1 = values.length - k) ∧
    (calculateWeights S values).length = values.length ∧
    (calculateWeights S values).count (2 / ((values.length : ℚ) + (k : ℚ))) = k ∧
    (calculateWeights S values).count (1 / ((values.length : ℚ) + (k : ℚ))) =
      values.length - k := by
  have hk' : k = topPercentile values.length := by
    rw [hk, topPercentile, mul_comm]
  subst hk'
  have hpos := weight_denominator_pos values.length (by omega)
  refine ⟨?_, length_calculateWeights S values, ?_⟩
  · rw [applyBonus_replicate_ite]
    exact count_bonus_map S values 2 1 (by norm_num)
  · rw [calculateWeights_eq_ite S values hn]
    apply count_bonus_map S values
    intro h
    have h2 := (div_left_inj' (ne_of_gt hpos)).mp h
    norm_num at h2

theorem C6_bonus_count_witness :
    (2 ≤ ([5, 5, 5, 5, 5, 5] : List ℚ).length ∧
      2 = ⌈(2 / 10 : ℚ) * ((([5, 5, 5, 5, 5, 5] : List ℚ).length : Nat) : ℚ)⌉₊) ∧
    (calculateWeights insertionStdSort [5, 5, 5, 5, 5, 5]).count
      (2 / (((([5, 5, 5, 5, 5, 5] : List ℚ).length : Nat) : ℚ) + ((2 : Nat) : ℚ))) = 2 :=
  ⟨⟨by decide, by decide!⟩,
    (C6_bonus_count insertionStdSort [5, 5, 5, 5, 5, 5] 2 (by decide) (by decide!)).2.2.1⟩

/-! ## Distinct distances -/

theorem countP_gt_of_sorted (l : List DataPoint)
    (hs : l.Pairwise (fun a b => a.distance > b.distance)) (p : Nat) (hp : p < l.length) :
    l.countP (fun d => decide (d.distance > l[p].distance)) = p := by
  induction l generalizing p with
  | nil => simp at hp
  | cons a l ih =>
    obtain ⟨hhead, htail⟩ := List.pairwise_cons.mp hs
    cases p with
    | zero =>
      have h0 : l.countP (fun d => decide (d.distance > a.distance)) = 0 :=
        List.countP_eq_zero.mpr (fun b hb => by
          have := hhead b hb
          simp only [decide_eq_true_eq, not_lt]
          exact le_of_lt this)
      simp [List.countP_cons, h0]
    | succ p =>
      have hp' : p < l.length := by simpa using hp
      have hmem : l[p] ∈ l := List.getElem_mem _
      have hgt : a.distance > l[p].distance := hhead _ hmem
      simp [List.countP_cons, ih htail p hp', hgt]

theorem map_distance_makeDataPoints (values : List ℚ) :
    (makeDataPoints values).map DataPoint.distance =
      (List.range values.length).map (distance values) := by
  simp [makeDataPoints, Function.comp_def]

theorem sorted_strict (S : StdSort) (values : List ℚ)
    (hdist : ((List.range values.length).map (distance values)).Nodup) :
    (S.sort (makeDataPoints values)).Pairwise (fun a b => a.distance > b.distance) := by
  have hnd : ((S.sort (makeDataPoints values)).map DataPoint.distance).Nodup := by
    have hperm := (S.perm (makeDataPoints values)).map DataPoint.distance
    rw [map_distance_makeDataPoints] at hperm
    exact hperm.nodup_iff.mpr hdist
  have hne : (S.sort (makeDataPoints values)).Pairwise
      (fun a b => a.distance ≠ b.distance) := List.pairwise_map.mp hnd
  refine List.Pairwise.imp₂ ?_ (S.sorted (makeDataPoints values)) hne
  intro a b hab hne
  have hle : b.distance ≤ a.distance := by simpa [compareByDistance] using hab
  exact lt_of_le_of_ne hle (Ne.symm hne)

theorem distanceRank_eq_countP_sorted (S : StdSort) (values : List ℚ) (i : Nat) :
    distanceRank values i =
      (S.sort (makeDataPoints values)).countP
        (fun d => decide (d.distance > distance values i)) := by
  rw [(S.perm (makeDataPoints values)).countP_eq]
  simp [distanceRank, makeDataPoints, List.countP_map, Function.comp_def]

theorem exists_position (S : StdSort) (values : List ℚ) (i : Nat) (hi : i < values.length) :
    ∃ p, ∃ (hp : p < (S.sort (makeDataPoints values)).length),
      (S.sort (makeDataPoints values))[p].index = i ∧
      (S.sort (makeDataPoints values))[p].distance = distance values i := by
  have hmem : ({ index := i, value := values.getD i 0, distance := distance values i } :
      DataPoint) ∈ makeDataPoints values := by
    simp only [makeDataPoints, List.mem_map, List.mem_range]
    exact ⟨i, hi, rfl⟩
  have hmem' := (S.perm (makeDataPoints values)).mem_iff.mpr hmem
  obtain ⟨p, hp, hpe⟩ := List.mem_iff_getElem.mp hmem'
  exact ⟨p, hp, by rw [hpe], by rw [hpe]⟩

theorem mem_bonusIndices_iff_rank (S : StdSort) (values : List ℚ)
    (hdist : ((List.range values.length).map (distance values)).Nodup)
    (i : Nat) (hi : i < values.length) :
    i ∈ bonusIndices S values ↔ distanceRank values i < topPercentile values.length := by
  obtain ⟨p, hp, hidx, hd⟩ := exists_position S values i hi
  have hrank : distanceRank values i = p := by
    rw [distanceRank_eq_countP_sorted S, ← hd]
    exact countP_gt_of_sorted _ (sorted_strict S values hdist) p hp
  have hnd : ((S.sort (makeDataPoints values)).map DataPoint.index).Nodup :=
    (perm_sorted_indices S values).nodup_iff.mpr (List.nodup_range _)
  rw [hrank]
  constructor
  · intro hmem
    simp only [bonusIndices, List.mem_map] at hmem
    obtain ⟨d, hdmem, hdi⟩ := hmem
    obtain ⟨q, hq, hqe⟩ := List.mem_take_iff_getElem.mp hdmem
    have hq1 : q < topPercentile values.length := lt_of_lt_of_le hq (min_le_left _ _)
    have hq2 : q < (S.sort (makeDataPoints values)).length :=
      lt_of_lt_of_le hq (min_le_right _ _)
    have hq3 : q < ((S.sort (makeDataPoints values)).map DataPoint.index).length := by
      simpa using hq2
    have hp3 : p < ((S.sort (makeDataPoints values)).map DataPoint.index).length := by
      simpa using hp
    have heq : ((S.sort (makeDataPoints values)).map DataPoint.index)[q] =
        ((S.sort (makeDataPoints values)).map DataPoint.index)[p] := by
      simp only [List.getElem_map, hqe, hdi, hidx]
    have := (hnd.getElem_inj_iff).mp heq
    omega
  · intro hpk
    simp only [bonusIndices, List.mem_map]
    refine ⟨(S.sort (makeDataPoints values))[p], ?_, hidx⟩
    exact List.mem_take_iff_getElem.mpr ⟨p, lt_min hpk hp, rfl⟩

theorem getElem?_windowsOf (n k j : Nat) (hn : 0 < n) (hk : 0 < k)
    (hj : j * windowSizeOf n k < n) :
    (windowsOf n k)[j]? = some (windowAt n (windowSizeOf n k) j) := by
  have hjm : j < numWindows n k := (lt_numWindows_iff n k j hn hk).mpr hj
  rw [windowsOf_eq n k hk, List.getElem?_map, List.getElem?_range hjm]
  rfl

theorem length_windowSlice (vals : List ℚ) (p : Nat × Nat) (h2 : p.2 ≤ vals.length) :
    (windowSlice vals p).length = p.2 - p.1 := by
  simp only [windowSlice, List.length_take, List.length_drop]
  omega

theorem windowAverage_eq (S : StdSort) (wv : List ℚ) (hne : 1 ≤ wv.length) :
    calculateWeightedAverage wv (calculateWeights S wv) =
      (List.zipWith (fun v w => v * w) wv (calculateWeights S wv)).sum /
        (calculateWeights S wv).sum := by
  rw [calculateWeightedAverage_eq wv _ (length_calculateWeights S wv)]
  rw [if_pos]
  rw [sum_calculateWeights S wv hne]
  norm_num

/-- C8: for equal-length non-empty inputs, `k > 0` and `w = ceil(n / k)`, the
`j`-th output point (for each `j` with `j * w < n`) carries the timestamp at
index `start + (end - start) / 2` of the full timestamp sequence and the value
`sum_i windowValues[i] * weights[i] / sum_i weights[i]`, where `start = j * w`,
`end = min (start + w) n`, `windowValues = values[start:end]` and
`weights = calculateWeights windowValues`. -/
theorem C8_output_point (S : StdSort) (timestamps : List String) (values : List ℚ)
    (k j w startIdx endIdx : Nat) (windowValues weights : List ℚ)
    (hlen : timestamps.length = values.length) (hk : 0 < k)
    (hw : w = ⌈(values.length : ℚ) / (k : ℚ)⌉₊)
    (hs : startIdx = j * w) (he : endIdx = min (startIdx + w) values.length)
    (hj : startIdx < values.length)
    (hwv : windowValues = (values.drop startIdx).take (endIdx - startIdx))
    (hws : weights = calculateWeights S windowValues) :
    ∃ out t, simplifyData S timestamps values k = some out ∧
      timestamps[startIdx + (endIdx - startIdx) / 2]? = some t ∧
      out[j]? = some (t,
        (List.zipWith (fun v x => v * x) windowValues weights).sum / weights.sum) := by
  have hw' : w = windowSizeOf values.length k := hw
  subst hw' hs he hwv hws
  have hn : 0 < values.length := by omega
  have hwpos := windowSizeOf_pos values.length k hn hk
  have hmid : j * windowSizeOf values.length k +
      (min (j * windowSizeOf values.length k + windowSizeOf values.length k) values.length -
        j * windowSizeOf values.length k) / 2 < timestamps.length := by omega
  refine ⟨_, _, simplifyData_eq S timestamps values k hk (le_of_eq hlen.symm),
    List.getElem?_eq_getElem hmid, ?_⟩
  rw [List.getElem?_map, getElem?_windowsOf values.length k j hn hk hj]
  simp only [Option.map_some', windowPoint, windowAt, List.getD_eq_getElem?_getD,
    List.getElem?_eq_getElem hmid, Option.getD_some]
  congr 2
  apply windowAverage_eq
  rw [length_windowSlice _ _ (by simp)]
  simp only
  omega

theorem C8_output_point_witness :
    ((["a", "b", "c", "d", "e"] : List String).length = ([1, 2, 3, 4, 5] : List ℚ).length ∧
      0 < 4 ∧ 2 = ⌈((([1, 2, 3, 4, 5] : List ℚ).length : Nat) : ℚ) / ((4 : Nat) : ℚ)⌉₊ ∧
      2 = 1 * 2 ∧ 4 = min (2 + 2) ([1, 2, 3, 4, 5] : List ℚ).length ∧
      2 < ([1, 2, 3, 4, 5] : List ℚ).length ∧
      ([3, 4] : List ℚ) = (([1, 2, 3, 4, 5] : List ℚ).drop 2).take (4 - 2) ∧
      ([2 / 3, 1 / 3] : List ℚ) = calculateWeights insertionStdSort [3, 4]) ∧
    ∃ out t, simplifyData insertionStdSort ["a", "b", "c", "d", "e"] [1, 2, 3, 4, 5] 4 = some out ∧
      (["a", "b", "c", "d", "e"] : List String)[2 + (4 - 2) / 2]? = some t ∧
      out[1]? = some (t,
        (List.zipWith (fun v x => v * x) [3, 4] [2 / 3, 1 / 3]).sum /
          ([2 / 3, 1 / 3] : List ℚ).sum) :=
  ⟨by decide!,
    C8_output_point insertionStdSort ["a", "b", "c", "d", "e"] [1, 2, 3, 4, 5] 4 1 2 2 4
      [3, 4] [2 / 3, 1 / 3] (by decide) (by decide) (by decide!) (by decide) (by decide)
      (by decide) (by decide!) (by decide!)⟩

/-! ## The windows partition the input -/

theorem getD_windowsOf (n k j : Nat) (hn : 0 < n) (hk : 0 < k) (hj : j < numWindows n k) :
    (windowsOf n k).getD j (0, 0) = windowAt n (windowSizeOf n k) j := by
  rw [List.getD_eq_getElem?_getD,
    getElem?_windowsOf n k j hn hk ((lt_numWindows_iff n k j hn hk).mp hj)]
  rfl

theorem numWindows_mul_ge (n k : Nat) (hn : 0 < n) (hk : 0 < k) :
    n ≤ numWindows n k * windowSizeOf n k := by
  have h := (lt_numWindows_iff n k (numWindows n k) hn hk).not.mp (lt_irrefl _)
  omega

theorem numWindows_pos (n k : Nat) (hn : 0 < n) (hk : 0 < k) : 0 < numWindows n k :=
  (lt_numWindows_iff n k 0 hn hk).mpr (by simpa using hn)

theorem windowSlice_windowAt (vals : List ℚ) (w j : Nat) :
    windowSlice vals (windowAt vals.length w j) = (vals.drop (j * w)).take w := by
  simp only [windowSlice, windowAt]
  by_cases h : j * w + w ≤ vals.length
  · rw [Nat.min_eq_left h, Nat.add_sub_cancel_left]
  · have hlen : (vals.drop (j * w)).length ≤ w := by
      rw [List.length_drop]; omega
    have hlen' : (vals.drop (j * w)).length ≤ min (j * w + w) vals.length - j * w := by
      rw [List.length_drop]; omega
    rw [List.take_of_length_le hlen, List.take_of_length_le hlen']

theorem flatten_windowSlices (vals : List ℚ) (w m : Nat) :
    ((List.range m).map (fun j => windowSlice vals (windowAt vals.length w j))).flatten =
      vals.take (m * w) := by
  induction m with
  | zero => simp
  | succ m ih =>
    rw [List.range_succ, List.map_append, List.flatten_append, ih, Nat.succ_mul, List.take_add]
    simp [windowSlice_windowAt]

theorem flatten_windowsOf (vals : List ℚ) (k : Nat) (hn : 0 < vals.length) (hk : 0 < k) :
    ((windowsOf vals.length k).map (windowSlice vals)).flatten = vals := by
  rw [windowsOf_eq _ _ hk, List.map_map]
  have h := flatten_windowSlices vals (windowSizeOf vals.length k) (numWindows vals.length k)
  rw [List.take_of_length_le (numWindows_mul_ge _ _ hn hk)] at h
  exact h

theorem pairwise_windowsOf (n k : Nat) (hk : 0 < k) :
    (windowsOf n k).Pairwise (fun p q => p.2 ≤ q.1) := by
  rw [windowsOf_eq n k hk, List.pairwise_map]
  refine List.Pairwise.imp ?_ (List.pairwise_lt_range (numWindows n k))
  intro a b hab
  have h : (a + 1) * windowSizeOf n k ≤ b * windowSizeOf n k :=
    Nat.mul_le_mul_right _ hab
  simp only [windowAt]
  rw [Nat.succ_mul] at h
  omega

theorem covering_window (n k i : Nat) (hk : 0 < k) (hi : i < n) :
    ∃! j, j < (windowsOf n k).length ∧
      ((windowsOf n k).getD j (0, 0)).1 ≤ i ∧ i < ((windowsOf n k).getD j (0, 0)).2 := by
  have hn : 0 < n := by omega
  have hw := windowSizeOf_pos n k hn hk
  rw [length_windowsOf n k hk]
  refine ⟨i / windowSizeOf n k, ?_, ?_⟩
  · have hlo : i / windowSizeOf n k * windowSizeOf n k ≤ i := Nat.div_mul_le_self _ _
    have hhi : i < i / windowSizeOf n k * windowSizeOf n k + windowSizeOf n k := by
      have := Nat.lt_succ_iff.mpr (le_refl (i / windowSizeOf n k))
      rw [Nat.succ_eq_add_one, Nat.div_lt_iff_lt_mul hw, Nat.add_mul, Nat.one_mul] at this
      exact this
    have hj : i / windowSizeOf n k < numWindows n k :=
      (lt_numWindows_iff n k _ hn hk).mpr (by omega)
    refine ⟨hj, ?_⟩
    rw [getD_windowsOf n k _ hn hk hj]
    simp only [windowAt]
    omega
  · rintro j ⟨hj, hlo, hhi⟩
    rw [getD_windowsOf n k j hn hk hj] at hlo hhi
    simp only [windowAt] at hlo hhi
    symm
    apply Nat.div_eq_of_lt_le
    · simpa using hlo
    · rw [Nat.succ_mul]; omega

theorem windowSizeOf_of_dvd (n k : Nat) (hk : 0 < k) (hdvd : k ∣ n) :
    windowSizeOf n k * k = n := by
  obtain ⟨q, rfl⟩ := hdvd
  rw [windowSizeOf_eq _ k hk]
  have hq : (k * q + k - 1) / k = q := by
    apply Nat.div_eq_of_lt_le
    · rw [Nat.mul_comm q k]; omega
    · rw [Nat.succ_mul, Nat.mul_comm q k]; omega
  rw [hq, Nat.mul_comm]

/-- C9: on a non-empty input of length `n` and `k > 0`, `simplifyData` maps its
loop body over the windows `windowsOf n k`; these are non-empty and within
`[0, n]`, start at 0, each starts where the previous one ends, the last ends at
`n`, an earlier window ends no later than a later one starts, every index
below `n` lies in exactly one of them, and the concatenation of their slices is
the input. -/
theorem C9_windows_partition (S : StdSort) (timestamps : List String) (values : List ℚ)
    (k : Nat) (hn : 1 ≤ values.length) (hk : 0 < k) :
    simplifyData S timestamps values k =
        (windowsOf values.length k).mapM (fun p => processWindow S timestamps values p.1 p.2) ∧
    (∀ p ∈ windowsOf values.length k, p.1 < p.2 ∧ p.2 ≤ values.length) ∧
    (0 < (windowsOf values.length k).length ∧
      ((windowsOf values.length k).getD 0 (0, 0)).1 = 0) ∧
    (∀ j, j + 1 < (windowsOf values.length k).length →
      ((windowsOf values.length k).getD (j + 1) (0, 0)).1 =
        ((windowsOf values.length k).getD j (0, 0)).2) ∧
    ((windowsOf values.length k).getD ((windowsOf values.length k).length - 1) (0, 0)).2 =
      values.length ∧
    (windowsOf values.length k).Pairwise (fun p q => p.2 ≤ q.1) ∧
    (∀ i, i < values.length →
      ∃! j, j < (windowsOf values.length k).length ∧
        ((windowsOf values.length k).getD j (0, 0)).1 ≤ i ∧
        i < ((windowsOf values.length k).getD j (0, 0)).2) ∧
    ((windowsOf values.length k).map
      (fun p => (values.drop p.1).take (p.2 - p.1))).flatten = values := by
  have hn' : 0 < values.length := hn
  have hm := numWindows_pos values.length k hn' hk
  have hge := numWindows_mul_ge values.length k hn' hk
  refine ⟨simplifyData_eq_mapM S timestamps values k,
    fun p hp => mem_windowsOf values.length k hk p hp, ?_, ?_, ?_,
    pairwise_windowsOf values.length k hk,
    fun i hi => covering_window values.length k i hk hi,
    flatten_windowsOf values k hn' hk⟩
  · rw [length_windowsOf _ _ hk, getD_windowsOf _ _ 0 hn' hk hm]
    exact ⟨hm, by simp [windowAt]⟩
  · intro j hj
    rw [length_windowsOf _ _ hk] at hj
    rw [getD_windowsOf _ _ (j + 1) hn' hk hj, getD_windowsOf _ _ j hn' hk (by omega)]
    have hlt := (lt_numWindows_iff values.length k (j + 1) hn' hk).mp hj
    simp only [windowAt]
    rw [Nat.add_mul, Nat.one_mul] at hlt ⊢
    omega
  · rw [length_windowsOf _ _ hk, getD_windowsOf _ _ _ hn' hk (by omega)]
    simp only [windowAt]
    have hsplit : numWindows values.length k * windowSizeOf values.length k =
        (numWindows values.length k - 1) * windowSizeOf values.length k +
          windowSizeOf values.length k := by
      conv_lhs => rw [show numWindows values.length k = numWindows values.length k - 1 + 1 by omega]
      rw [Nat.add_mul, Nat.one_mul]
    omega

theorem C9_windows_partition_witness :
    (1 ≤ ([1, 2, 3, 4, 5] : List ℚ).length ∧ 0 < 4) ∧
    windowsOf ([1, 2, 3, 4, 5] : List ℚ).length 4 = [(0, 2), (2, 4), (4, 5)] ∧
    ((windowsOf ([1, 2, 3, 4, 5] : List ℚ).length 4).map
      (fun p => (([1, 2, 3, 4, 5] : List ℚ).drop p.1).take (p.2 - p.1))).flatten =
        [1, 2, 3, 4, 5] :=
  ⟨by decide, by decide!,
    (C9_windows_partition insertionStdSort ["a", "b", "c", "d", "e"] [1, 2, 3, 4, 5] 4
      (by decide) (by decide)).2.2.2.2.2.2.2⟩

/-- C10, counterexample: five samples and `k = 4` give three output points,
not four. -/
theorem C10_counterexample :
    (["a", "b", "c", "d", "e"] : List String).length = ([1, 2, 3, 4, 5] : List ℚ).length ∧
    0 < 4 ∧ 4 ≤ ([1, 2, 3, 4, 5] : List ℚ).length ∧
    simplifyData insertionStdSort ["a", "b", "c", "d", "e"] [1, 2, 3, 4, 5] 4 =
      some [("b", 4 / 3), ("d", 10 / 3), ("e", 5)] ∧
    ([("b", 4 / 3), ("d", 10 / 3), ("e", 5)] : List (String × ℚ)).length ≠ 4 := by
  decide!

/-- C10, amended: for equal-length inputs with `len(values) = n ≥ k > 0`,
`simplifyData` returns exactly `ceil(n / ceil(n / k))` points; this number is
at most `k`, it equals `k` exactly when `(k - 1) * ceil(n / k) < n`, and in
particular whenever `k` divides `n`. -/
theorem C10_output_count (S : StdSort) (timestamps : List String) (values : List ℚ)
    (k : Nat) (hlen : timestamps.length = values.length) (hk : 0 < k)
    (hkn : k ≤ values.length) :
    ∃ out, simplifyData S timestamps values k = some out ∧
      out.length =
        ⌈(values.length : ℚ) / ((⌈(values.length : ℚ) / (k : ℚ)⌉₊ : Nat) : ℚ)⌉₊ ∧
      out.length ≤ k ∧
      (out.length = k ↔ (k - 1) * ⌈(values.length : ℚ) / (k : ℚ)⌉₊ < values.length) ∧
      (k ∣ values.length → out.length = k) := by
  have hn : 0 < values.length := by omega
  have hle := numWindows_le values.length k hk
  have hiff := lt_numWindows_iff values.length k (k - 1) hn hk
  have hlenout : ((windowsOf values.length k).map (windowPoint S timestamps values)).length =
      numWindows values.length k := by
    rw [List.length_map, length_windowsOf _ _ hk]
  have hexact : numWindows values.length k = k ↔
      (k - 1) * windowSizeOf values.length k < values.length := by
    rw [← hiff]; omega
  refine ⟨_, simplifyData_eq S timestamps values k hk (le_of_eq hlen.symm), ?_, ?_, ?_, ?_⟩
  · rw [hlenout]; rfl
  · rw [hlenout]; exact hle
  · rw [hlenout]; exact hexact
  · intro hdvd
    rw [hlenout, hexact]
    have hmul := windowSizeOf_of_dvd values.length k hk hdvd
    have hwpos := windowSizeOf_pos values.length k hn hk
    have hsub : (k - 1) * windowSizeOf values.length k + windowSizeOf values.length k =
        values.length := by
      have h1 : (k - 1 + 1) * windowSizeOf values.length k = values.length := by
        rw [Nat.sub_add_cancel hk, Nat.mul_comm]; exact hmul
      rw [Nat.add_mul, Nat.one_mul] at h1
      exact h1
    omega

theorem C10_output_count_witness :
    ((["a", "b", "c", "d", "e", "f"] : List String).length =
        ([1, 2, 3, 4, 5, 6] : List ℚ).length ∧
      0 < 3 ∧ 3 ≤ ([1, 2, 3, 4, 5, 6] : List ℚ).length) ∧
    ∃ out, simplifyData insertionStdSort ["a", "b", "c", "d", "e", "f"] [1, 2, 3, 4, 5, 6] 3 =
        some out ∧ out.length ≤ 3 ∧
      (3 ∣ ([1, 2, 3, 4, 5, 6] : List ℚ).length → out.length = 3) :=
  ⟨by decide,
    (C10_output_count insertionStdSort ["a", "b", "c", "d", "e", "f"] [1, 2, 3, 4, 5, 6] 3
      (by decide) (by decide) (by decide)).imp fun _ h => ⟨h.1, h.2.2.1, h.2.2.2.2⟩⟩

/-! ## Weights are positive; averages are convex combinations -/

theorem calculateWeights_pos (S : StdSort) (values : List ℚ) (w : ℚ)
    (hw : w ∈ calculateWeights S values) : 0 < w := by
  by_cases hn : values.length ≤ 1
  · rw [calculateWeights_of_le_one S values hn] at hw
    rw [(List.mem_replicate.mp hw).2]
    norm_num
  · have hpos := weight_denominator_pos values.length (by omega)
    rw [calculateWeights_eq_ite S values (by omega), List.mem_map] at hw
    obtain ⟨i, _, rfl⟩ := hw
    split_ifs
    · exact div_pos (by norm_num) hpos
    · exact div_pos (by norm_num) hpos

theorem sum_zipWith_eq_finset (values weights : List ℚ) (h : weights.length = values.length) :
    (List.zipWith (fun v w => v * w) values weights).sum =
      ∑ i in Finset.range values.length, values.getD i 0 * weights.getD i 0 := by
  rw [← map_mul_getD_range values weights h, sum_map_range_eq_finset]

theorem sum_eq_finset (values weights : List ℚ) (h : weights.length = values.length) :
    weights.sum = ∑ i in Finset.range values.length, weights.getD i 0 := by
  rw [← sum_map_range_eq_finset, ← h, map_getD_range]

theorem getD_mem (l : List ℚ) (i : Nat) (hi : i < l.length) : l.getD i 0 ∈ l := by
  rw [List.getD_eq_getElem?_getD, List.getElem?_eq_getElem hi]
  exact List.getElem_mem _

theorem windowAverage_sum (S : StdSort) (values : List ℚ) (hne : 1 ≤ values.length) :
    calculateWeightedAverage values (calculateWeights S values) =
      ∑ i in Finset.range values.length,
        values.getD i 0 * (calculateWeights S values).getD i 0 := by
  rw [windowAverage_eq S values hne, sum_calculateWeights S values hne, div_one,
    sum_zipWith_eq_finset values _ (length_calculateWeights S values)]

theorem windowAverage_bounds (S : StdSort) (values : List ℚ) (hne : 1 ≤ values.length)
    (lo hi : ℚ) (hlo : ∀ v ∈ values, lo ≤ v) (hhi : ∀ v ∈ values, v ≤ hi) :
    lo ≤ calculateWeightedAverage values (calculateWeights S values) ∧
      calculateWeightedAverage values (calculateWeights S values) ≤ hi := by
  have hlenw := length_calculateWeights S values
  have hsum : ∑ i in Finset.range values.length, (calculateWeights S values).getD i 0 = 1 := by
    rw [← sum_eq_finset values _ hlenw]; exact sum_calculateWeights S values hne
  have hw : ∀ i ∈ Finset.range values.length, 0 ≤ (calculateWeights S values).getD i 0 := by
    intro i hi
    rw [Finset.mem_range] at hi
    exact le_of_lt (calculateWeights_pos S values _ (getD_mem _ i (by omega)))
  rw [windowAverage_sum S values hne]
  constructor
  · calc lo = ∑ i in Finset.range values.length, lo * (calculateWeights S values).getD i 0 := by
          rw [← Finset.mul_sum, hsum, mul_one]
      _ ≤ _ := Finset.sum_le_sum (fun i hi =>
          mul_le_mul_of_nonneg_right
            (hlo _ (getD_mem values i (Finset.mem_range.mp hi))) (hw i hi))
  · calc _ ≤ ∑ i in Finset.range values.length, hi * (calculateWeights S values).getD i 0 :=
          Finset.sum_le_sum (fun i hi' =>
            mul_le_mul_of_nonneg_right
              (hhi _ (getD_mem values i (Finset.mem_range.mp hi'))) (hw i hi'))
      _ = hi := by rw [← Finset.mul_sum, hsum, mul_one]

theorem windowAverage_uniform (S : StdSort) (values : List ℚ) (c : ℚ)
    (hne : 1 ≤ values.length) (hc : ∀ v ∈ values, v = c) :
    calculateWeightedAverage values (calculateWeights S values) = c := by
  have h := windowAverage_bounds S values hne c c (fun v hv => le_of_eq (hc v hv).symm)
    (fun v hv => le_of_eq (hc v hv))
  exact le_antisymm h.2 h.1

theorem mem_windowSlice (vals : List ℚ) (p : Nat × Nat) (v : ℚ)
    (hv : v ∈ windowSlice vals p) : v ∈ vals :=
  List.mem_of_mem_drop (List.mem_of_mem_take hv)

theorem length_windowSlice_pos (vals : List ℚ) (k : Nat) (hk : 0 < k) (p : Nat × Nat)
    (hp : p ∈ windowsOf vals.length k) : 1 ≤ (windowSlice vals p).length := by
  obtain ⟨h1, h2⟩ := mem_windowsOf vals.length k hk p hp
  rw [length_windowSlice vals p h2]
  omega

theorem foldl_min_le (l : List ℚ) (a : ℚ) :
    l.foldl min a ≤ a ∧ ∀ v ∈ l, l.foldl min a ≤ v := by
  induction l generalizing a with
  | nil => simp
  | cons x l ih =>
    obtain ⟨h1, h2⟩ := ih (min a x)
    refine ⟨le_trans h1 (min_le_left a x), ?_⟩
    intro v hv
    rcases List.mem_cons.mp hv with rfl | hv
    · exact le_trans h1 (min_le_right a v)
    · exact h2 v hv

theorem le_foldl_max (l : List ℚ) (a : ℚ) :
    a ≤ l.foldl max a ∧ ∀ v ∈ l, v ≤ l.foldl max a := by
  induction l generalizing a with
  | nil => simp
  | cons x l ih =>
    obtain ⟨h1, h2⟩ := ih (max a x)
    refine ⟨le_trans (le_max_left a x) h1, ?_⟩
    intro v hv
    rcases List.mem_cons.mp hv with rfl | hv
    · exact le_trans (le_max_right a v) h1
    · exact h2 v hv

theorem foldl_min_mem (l : List ℚ) (a : ℚ) : l.foldl min a = a ∨ l.foldl min a ∈ l := by
  induction l generalizing a with
  | nil => simp
  | cons x l ih =>
    rcases ih (min a x) with h | h
    · rcases min_choice a x with h2 | h2
      · left; rw [List.foldl_cons, h, h2]
      · right; rw [List.foldl_cons, h, h2]; exact List.mem_cons_self x l
    · right; exact List.mem_cons_of_mem x h

theorem foldl_max_mem (l : List ℚ) (a : ℚ) : l.foldl max a = a ∨ l.foldl max a ∈ l := by
  induction l generalizing a with
  | nil => simp
  | cons x l ih =>
    rcases ih (max a x) with h | h
    · rcases max_choice a x with h2 | h2
      · left; rw [List.foldl_cons, h, h2]
      · right; rw [List.foldl_cons, h, h2]; exact List.mem_cons_self x l
    · right; exact List.mem_cons_of_mem x h

theorem windowMin_le (values : List ℚ) (v : ℚ) (hv : v ∈ values) : windowMin values ≤ v :=
  (foldl_min_le values (values.headD 0)).2 v hv

theorem le_windowMax (values : List ℚ) (v : ℚ) (hv : v ∈ values) : v ≤ windowMax values :=
  (le_foldl_max values (values.headD 0)).2 v hv

theorem windowMin_mem (values : List ℚ) (hne : values ≠ []) : windowMin values ∈ values := by
  cases values with
  | nil => exact absurd rfl hne
  | cons x l =>
    rcases foldl_min_mem (x :: l) x with h | h
    · show List.foldl min x (x :: l) ∈ x :: l
      rw [h]; exact List.mem_cons_self x l
    · exact h

theorem windowMax_mem (values : List ℚ) (hne : values ≠ []) : windowMax values ∈ values := by
  cases values with
  | nil => exact absurd rfl hne
  | cons x l =>
    rcases foldl_max_mem (x :: l) x with h | h
    · show List.foldl max x (x :: l) ∈ x :: l
      rw [h]; exact List.mem_cons_self x l
    · exact h

theorem length_pos_of_ne_nil (values : List ℚ) (hne : values ≠ []) : 1 ≤ values.length :=
  List.length_pos.mpr hne

/-- C11, amended: over exact arithmetic (weights, products, sums and quotient
computed without rounding), for every non-empty window whose values all equal
`c` the weighted average under the weights of `calculateWeights` is exactly
`c`, whichever indices the sort hands the bonus; hence on an equal-length input
whose values all equal `c`, with `k > 0`, every output point of `simplifyData`
has the value `c`. -/
theorem C11_uniform_values (S : StdSort) (timestamps : List String) (values : List ℚ)
    (c : ℚ) (k : Nat) (hlen : timestamps.length = values.length) (hk : 0 < k)
    (hc : ∀ v ∈ values, v = c) :
    (∀ window : List ℚ, window ≠ [] → (∀ v ∈ window, v = c) →
      calculateWeightedAverage window (calculateWeights S window) = c) ∧
    ∃ out, simplifyData S timestamps values k = some out ∧ ∀ pt ∈ out, pt.2 = c := by
  refine ⟨fun window hne hw =>
    windowAverage_uniform S window c (length_pos_of_ne_nil window hne) hw, ?_⟩
  refine ⟨_, simplifyData_eq S timestamps values k hk (le_of_eq hlen.symm), ?_⟩
  intro pt hpt
  obtain ⟨p, hp, rfl⟩ := List.mem_map.mp hpt
  exact windowAverage_uniform S _ c (length_windowSlice_pos values k hk p hp)
    (fun v hv => hc v (mem_windowSlice values p v hv))

theorem C11_uniform_values_witness :
    ((["a", "b", "c", "d", "e"] : List String).length = ([5, 5, 5, 5, 5] : List ℚ).length ∧
      0 < 2 ∧ ∀ v ∈ ([5, 5, 5, 5, 5] : List ℚ), v = 5) ∧
    calculateWeightedAverage [5, 5, 5, 5, 5] (calculateWeights insertionStdSort [5, 5, 5, 5, 5])
      = 5 :=
  ⟨by decide!,
    (C11_uniform_values insertionStdSort ["a", "b", "c", "d", "e"] [5, 5, 5, 5, 5] 5 2
      (by decide) (by decide) (by decide!)).1 [5, 5, 5, 5, 5] (by decide) (by decide!)⟩

/-- C13: every element of the result of `calculateWeights` is non-negative, for
every input window, the empty one and the one-element one included. -/
theorem C13_weights_nonneg (S : StdSort) (values : List ℚ) :
    ∀ w ∈ calculateWeights S values, 0 ≤ w :=
  fun w hw => le_of_lt (calculateWeights_pos S values w hw)

theorem C13_weights_nonneg_witness :
    (1 / 6 : ℚ) ∈ calculateWeights insertionStdSort [100, 7, 8, 9, 10] ∧ (0 : ℚ) ≤ 1 / 6 :=
  ⟨by decide!,
    C13_weights_nonneg insertionStdSort [100, 7, 8, 9, 10] (1 / 6) (by decide!)⟩

/-- C14: `calculateWeights [v] = [1]` for every `v`, and more generally a
window of length at most 1 gets the weight 1 for each of its elements,
unnormalised. -/
theorem C14_single_element (S : StdSort) (v : ℚ) :
    calculateWeights S [v] = [1] ∧
      ∀ values : List ℚ, values.length ≤ 1 →
        calculateWeights S values = List.replicate values.length 1 :=
  ⟨by rw [calculateWeights_of_le_one S [v] (by simp)]; rfl,
    fun values h => calculateWeights_of_le_one S values h⟩

/-- C15: for every `k > 0`, `simplifyData` on the empty input returns the
empty sequence and no error. -/
theorem C15_empty_input (S : StdSort) (k : Nat) (hk : 0 < k) :
    simplifyData S [] [] k = some [] := by
  have := hk
  simp [simplifyData]

theorem C15_empty_input_witness :
    0 < 100 ∧ simplifyData insertionStdSort [] [] 100 = some [] :=
  ⟨by decide, C15_empty_input insertionStdSort 100 (by decide)⟩

/-! ## Weights from the ranks of the distances -/

theorem calculateWeights_eq_rank (S : StdSort) (values : List ℚ) (hn : 2 ≤ values.length)
    (hdist : ((List.range values.length).map (distance values)).Nodup) :
    calculateWeights S values =
      (List.range values.length).map (fun i =>
        if distanceRank values i < topPercentile values.length then
          (2 : ℚ) / ((values.length : ℚ) + (topPercentile values.length : ℚ))
        else 1 / ((values.length : ℚ) + (topPercentile values.length : ℚ))) := by
  rw [calculateWeights_eq_ite S values hn]
  apply List.map_congr_left
  intro i hi
  rw [List.mem_range] at hi
  by_cases h : i ∈ bonusIndices S values
  · rw [if_pos h, if_pos ((mem_bonusIndices_iff_rank S values hdist i hi).mp h)]
  · rw [if_neg h, if_neg (fun h2 => h ((mem_bonusIndices_iff_rank S values hdist i hi).mpr h2))]

theorem applyBonus_eq_rank (S : StdSort) (values : List ℚ)
    (hdist : ((List.range values.length).map (distance values)).Nodup) :
    applyBonus (List.replicate values.length (1 : ℚ))
        ((S.sort (makeDataPoints values)).take (topPercentile values.length)) =
      (List.range values.length).map (fun i =>
        if distanceRank values i < topPercentile values.length then (2 : ℚ) else 1) := by
  rw [applyBonus_replicate_ite]
  apply List.map_congr_left
  intro i hi
  rw [List.mem_range] at hi
  by_cases h : i ∈ bonusIndices S values
  · rw [if_pos h, if_pos ((mem_bonusIndices_iff_rank S values hdist i hi).mp h)]
  · rw [if_neg h, if_neg (fun h2 => h ((mem_bonusIndices_iff_rank S values hdist i hi).mpr h2))]

theorem scenarioA_weights (S : StdSort) :
    calculateWeights S [100, 7, 8, 9, 10] = [1 / 3, 1 / 6, 1 / 6, 1 / 6, 1 / 6] := by
  rw [calculateWeights_eq_rank S [100, 7, 8, 9, 10] (by decide) (by decide!)]
  decide!

theorem scenarioA_bonus (S : StdSort) :
    applyBonus (List.replicate 5 (1 : ℚ))
        ((S.sort (makeDataPoints [100, 7, 8, 9, 10])).take 1) = [2, 1, 1, 1, 1] := by
  have h := applyBonus_eq_rank S [100, 7, 8, 9, 10] (by decide!)
  have hk : topPercentile ([100, 7, 8, 9, 10] : List ℚ).length = 1 := by decide!
  rw [hk] at h
  rw [show (5 : Nat) = ([100, 7, 8, 9, 10] : List ℚ).length from rfl, h]
  decide!

/-- C12: scenario A.  For `values = [1,2,3,4,5,100,7,8,9,10]`, any ten
timestamps and `desiredPoints = 2`, the windows are the index ranges `[0, 5)`
and `[5, 10)` with the values `[1,2,3,4,5]` and `[100,7,8,9,10]`; in the second
window the bonus loop raises only the weight of `100`; `simplifyData` emits
exactly two points, at `timestamps[2]` and `timestamps[7]`, the second with the
value `(2*100+7+8+9+10)/6 = 39`, above the unweighted mean `26.8`. -/
theorem C12_scenario_A (S : StdSort) (timestamps : List String)
    (hlen : timestamps.length = 10) :
    windowsOf 10 2 = [(0, 5), (5, 10)] ∧
    windowSlice [1, 2, 3, 4, 5, 100, 7, 8, 9, 10] (0, 5) = [1, 2, 3, 4, 5] ∧
    windowSlice [1, 2, 3, 4, 5, 100, 7, 8, 9, 10] (5, 10) = [100, 7, 8, 9, 10] ∧
    applyBonus (List.replicate 5 (1 : ℚ))
      ((S.sort (makeDataPoints [100, 7, 8, 9, 10])).take 1) = [2, 1, 1, 1, 1] ∧
    calculateWeights S [100, 7, 8, 9, 10] = [2 / 6, 1 / 6, 1 / 6, 1 / 6, 1 / 6] ∧
    (∃ t2 t7 v0, timestamps[2]? = some t2 ∧ timestamps[7]? = some t7 ∧
      simplifyData S timestamps [1, 2, 3, 4, 5, 100, 7, 8, 9, 10] 2 =
        some [(t2, v0), (t7, 39)]) ∧
    (39 : ℚ) = (2 * 100 + 7 + 8 + 9 + 10) / 6 ∧
    ((100 + 7 + 8 + 9 + 10) / 5 : ℚ) = 26.8 ∧ (26.8 : ℚ) < 39 := by
  have hw : calculateWeights S [100, 7, 8, 9, 10] = [2 / 6, 1 / 6, 1 / 6, 1 / 6, 1 / 6] := by
    rw [scenarioA_weights S]; norm_num
  have hwin : windowsOf 10 2 = [(0, 5), (5, 10)] := by decide!
  have hs1 : windowSlice [1, 2, 3, 4, 5, 100, 7, 8, 9, 10] (5, 10) = [100, 7, 8, 9, 10] := by
    decide!
  refine ⟨hwin, by decide!, hs1, scenarioA_bonus S, hw, ?_, by norm_num, by norm_num,
    by norm_num⟩
  have h2 : 2 < timestamps.length := by omega
  have h7 : 7 < timestamps.length := by omega
  refine ⟨timestamps.getD 2 "", timestamps.getD 7 "",
    calculateWeightedAverage (windowSlice [1, 2, 3, 4, 5, 100, 7, 8, 9, 10] (0, 5))
      (calculateWeights S (windowSlice [1, 2, 3, 4, 5, 100, 7, 8, 9, 10] (0, 5))), ?_, ?_, ?_⟩
  · rw [List.getD_eq_getElem?_getD, List.getElem?_eq_getElem h2]; rfl
  · rw [List.getD_eq_getElem?_getD, List.getElem?_eq_getElem h7]; rfl
  · rw [simplifyData_eq S timestamps _ 2 (by decide) (by rw [hlen]; decide)]
    have hl : ([1, 2, 3, 4, 5, 100, 7, 8, 9, 10] : List ℚ).length = 10 := rfl
    rw [hl, hwin]
    have havg : calculateWeightedAverage [100, 7, 8, 9, 10]
        [1 / 3, 1 / 6, 1 / 6, 1 / 6, 1 / 6] = 39 := by decide!
    simp only [List.map_cons, List.map_nil, windowPoint, hs1, scenarioA_weights S, havg]

theorem C12_scenario_A_witness :
    (["a", "b", "c", "d", "e", "f", "g", "h", "i", "j"] : List String).length = 10 ∧
    simplifyData insertionStdSort ["a", "b", "c", "d", "e", "f", "g", "h", "i", "j"]
      [1, 2, 3, 4, 5, 100, 7, 8, 9, 10] 2 = some [("c", 8 / 3), ("h", 39)] ∧
    calculateWeights insertionStdSort [100, 7, 8, 9, 10] = [2 / 6, 1 / 6, 1 / 6, 1 / 6, 1 / 6] :=
  ⟨by decide, by decide!,
    (C12_scenario_A insertionStdSort ["a", "b", "c", "d", "e", "f", "g", "h", "i", "j"]
      (by decide)).2.2.2.2.1⟩

/-! ## The leave-one-out mean -/

theorem foldl_sum_except (g : Nat → ℚ) (i m : Nat) (a : ℚ) (c : Nat) :
    (List.range m).foldl
        (fun (acc : ℚ × Nat) j => if i ≠ j then (acc.1 + g j, acc.2 + 1) else acc) (a, c) =
      (a + ((List.range m).map g).sum - (if i < m then g i else 0),
        c + m - (if i < m then 1 else 0)) := by
  induction m with
  | zero => simp
  | succ m ih =>
    rw [List.range_succ, List.foldl_append, ih]
    rcases Nat.lt_trichotomy i m with h | h | h
    · have h1 : i < m + 1 := by omega
      have h2 : i ≠ m := by omega
      simp only [List.foldl_cons, List.foldl_nil, h, h1, h2, if_true, ne_eq, not_false_eq_true,
        List.map_append, List.sum_append, List.map_cons, List.map_nil, List.sum_cons,
        List.sum_nil, add_zero, Prod.mk.injEq]
      constructor
      · ring
      · omega
    · subst h
      simp
      ring
    · have h1 : ¬ i < m + 1 := by omega
      have h2 : ¬ i < m := by omega
      have h3 : i ≠ m := by omega
      simp only [List.foldl_cons, List.foldl_nil, h1, h2, h3, if_false, ne_eq,
        not_false_eq_true, if_true, List.map_append, List.sum_append, List.map_cons,
        List.map_nil, List.sum_cons, List.sum_nil, add_zero, Prod.mk.injEq, sub_zero]
      constructor
      · ring
      · omega

theorem avgWithoutCurrent_eq (values : List ℚ) (i : Nat) (hi : i < values.length) :
    avgWithoutCurrent values i =
      (values.sum - values.getD i 0) / ((values.length - 1 : Nat) : ℚ) := by
  unfold avgWithoutCurrent
  simp only [foldl_sum_except (fun j => values.getD j 0), map_getD_range, hi, if_true,
    zero_add, Nat.zero_add]

theorem avgWithoutCurrent_eq_fast (values : List ℚ) (i : Nat) (hi : i < values.length) :
    avgWithoutCurrent values i = avgWithoutCurrentFast values i :=
  avgWithoutCurrent_eq values i hi

theorem distance_eq_fast (values : List ℚ) (i : Nat) (hi : i < values.length) :
    distance values i = distanceFast values i := by
  unfold distance distanceFast
  rw [avgWithoutCurrent_eq_fast values i hi]

theorem makeDataPoints_eq_fast (values : List ℚ) :
    makeDataPoints values = makeDataPointsFast values := by
  unfold makeDataPoints makeDataPointsFast
  apply List.map_congr_left
  intro i hi
  rw [distance_eq_fast values i (List.mem_range.mp hi)]

theorem calculateWeights_eq_fast (S : StdSort) (values : List ℚ) :
    calculateWeights S values = calculateWeightsFast S values := by
  unfold calculateWeights calculateWeightsFast
  rw [makeDataPoints_eq_fast]

/-- C17: in a window of `n ≥ 2` values the leave-one-out mean that
`calculateWeights` accumulates for index `i` (the sum of the `values[j]` with
`j ≠ i` over their count) equals `(total - values[i]) / (n - 1)`, with `total`
the sum of the window; the distances computed from either formulation agree,
and so do the weights. -/
theorem C17_leave_one_out_refinement (S : StdSort) (values : List ℚ) (i : Nat)
    (hn : 2 ≤ values.length) (hi : i < values.length) :
    avgWithoutCurrent values i = (values.sum - values.getD i 0) / ((values.length : ℚ) - 1) ∧
    avgWithoutCurrent values i = avgWithoutCurrentFast values i ∧
    distance values i = distanceFast values i ∧
    makeDataPoints values = makeDataPointsFast values ∧
    calculateWeights S values = calculateWeightsFast S values := by
  refine ⟨?_, avgWithoutCurrent_eq_fast values i hi, distance_eq_fast values i hi,
    makeDataPoints_eq_fast values, calculateWeights_eq_fast S values⟩
  rw [avgWithoutCurrent_eq values i hi]
  have h1 : 1 ≤ values.length := by omega
  rw [Nat.cast_sub h1, Nat.cast_one]

theorem C17_leave_one_out_refinement_witness :
    (2 ≤ ([100, 7, 8, 9, 10] : List ℚ).length ∧ 0 < ([100, 7, 8, 9, 10] : List ℚ).length) ∧
    avgWithoutCurrent [100, 7, 8, 9, 10] 0 = 17 / 2 ∧
    avgWithoutCurrent [100, 7, 8, 9, 10] 0 = avgWithoutCurrentFast [100, 7, 8, 9, 10] 0 :=
  ⟨by decide, by decide!,
    (C17_leave_one_out_refinement insertionStdSort [100, 7, 8, 9, 10] 0 (by decide)
      (by decide)).2.1⟩

/-- C18: the code at the window `[100, 7, 8, 9, 10]`.  Index 0 is farther from
the mean of the others than index 1, and its weight is `1/3` against `1/6`:
the farther point gets the larger weight, not the smaller one. -/
theorem C18_farther_point_weighs_more (S : StdSort) :
    distance [100, 7, 8, 9, 10] 0 > distance [100, 7, 8, 9, 10] 1 ∧
    (calculateWeights S [100, 7, 8, 9, 10]).getD 0 0 = 1 / 3 ∧
    (calculateWeights S [100, 7, 8, 9, 10]).getD 1 0 = 1 / 6 ∧
    ¬ ((calculateWeights S [100, 7, 8, 9, 10]).getD 0 0 ≤
      (calculateWeights S [100, 7, 8, 9, 10]).getD 1 0) := by
  rw [scenarioA_weights S]
  decide!

/-! ## Windows are independent; their indices stay in range -/

theorem windowSlice_congr (vals1 vals2 : List ℚ) (p : Nat × Nat)
    (hn : vals1.length = vals2.length) (hp : p.2 ≤ vals1.length)
    (hagree : ∀ i, p.1 ≤ i → i < p.2 → vals1.getD i 0 = vals2.getD i 0) :
    windowSlice vals1 p = windowSlice vals2 p := by
  apply List.ext_getElem?
  intro i
  simp only [windowSlice, List.getElem?_take, List.getElem?_drop]
  split_ifs with h
  · have h1 : p.1 + i < vals1.length := by omega
    have h2 : p.1 + i < vals2.length := by omega
    have := hagree (p.1 + i) (by omega) (by omega)
    rw [List.getD_eq_getElem?_getD, List.getD_eq_getElem?_getD,
      List.getElem?_eq_getElem h1, List.getElem?_eq_getElem h2] at this
    rw [List.getElem?_eq_getElem h1, List.getElem?_eq_getElem h2]
    exact congrArg some this
  · rfl

theorem getElem?_simplifyData (S : StdSort) (ts : List String) (vals : List ℚ) (k j : Nat)
    (hk : 0 < k) (hlen : vals.length ≤ ts.length)
    (hj : j * windowSizeOf vals.length k < vals.length) :
    ∃ out, simplifyData S ts vals k = some out ∧
      out[j]? = some (windowPoint S ts vals (windowAt vals.length (windowSizeOf vals.length k) j)) := by
  refine ⟨_, simplifyData_eq S ts vals k hk hlen, ?_⟩
  rw [List.getElem?_map, getElem?_windowsOf vals.length k j (by omega) hk hj]
  rfl

/-- C16: window independence.  For two equal-length inputs of the same length
and the same `k > 0` whose values agree on the indices of window `j`, the
`j`-th output points of the two runs of `simplifyData` carry the same value. -/
theorem C16_window_independence (S : StdSort) (timestamps1 timestamps2 : List String)
    (values1 values2 : List ℚ) (k j : Nat)
    (hlen1 : timestamps1.length = values1.length)
    (hlen2 : timestamps2.length = values2.length)
    (hn : values1.length = values2.length) (hk : 0 < k)
    (hj : j * windowSizeOf values1.length k < values1.length)
    (hagree : ∀ i, j * windowSizeOf values1.length k ≤ i →
      i < min (j * windowSizeOf values1.length k + windowSizeOf values1.length k)
        values1.length →
      values1.getD i 0 = values2.getD i 0) :
    ∃ out1 out2 p1 p2,
      simplifyData S timestamps1 values1 k = some out1 ∧
      simplifyData S timestamps2 values2 k = some out2 ∧
      out1[j]? = some p1 ∧ out2[j]? = some p2 ∧ p1.2 = p2.2 := by
  obtain ⟨out1, ho1, hp1⟩ :=
    getElem?_simplifyData S timestamps1 values1 k j hk (le_of_eq hlen1.symm) hj
  obtain ⟨out2, ho2, hp2⟩ :=
    getElem?_simplifyData S timestamps2 values2 k j hk (le_of_eq hlen2.symm) (by rw [← hn]; exact hj)
  refine ⟨out1, out2, _, _, ho1, ho2, hp1, hp2, ?_⟩
  have hslice : windowSlice values1 (windowAt values1.length (windowSizeOf values1.length k) j) =
      windowSlice values2 (windowAt values2.length (windowSizeOf values2.length k) j) := by
    rw [← hn]
    apply windowSlice_congr values1 values2 _ hn
    · simp [windowAt]
    · exact hagree
  simp only [windowPoint, hslice]

theorem C16_window_independence_witness :
    ((["a", "b", "c", "d"] : List String).length = ([1, 2, 3, 4] : List ℚ).length ∧
      (["p", "q", "r", "s"] : List String).length = ([1, 2, 30, 40] : List ℚ).length ∧
      ([1, 2, 3, 4] : List ℚ).length = ([1, 2, 30, 40] : List ℚ).length ∧ 0 < 2 ∧
      0 * windowSizeOf ([1, 2, 3, 4] : List ℚ).length 2 < ([1, 2, 3, 4] : List ℚ).length) ∧
    ∃ out1 out2 p1 p2,
      simplifyData insertionStdSort ["a", "b", "c", "d"] [1, 2, 3, 4] 2 = some out1 ∧
      simplifyData insertionStdSort ["p", "q", "r", "s"] [1, 2, 30, 40] 2 = some out2 ∧
      out1[0]? = some p1 ∧ out2[0]? = some p2 ∧ p1.2 = p2.2 :=
  ⟨by decide!,
    C16_window_independence insertionStdSort ["a", "b", "c", "d"] ["p", "q", "r", "s"]
      [1, 2, 3, 4] [1, 2, 30, 40] 2 0 (by decide) (by decide) (by decide) (by decide)
      (by decide!) (by
        intro i h1 h2
        have hw : windowSizeOf ([1, 2, 3, 4] : List ℚ).length 2 = 2 := by decide!
        rw [hw] at h2
        have h3 : i < 2 := lt_of_lt_of_le h2 (min_le_left _ _)
        interval_cases i <;> rfl)⟩

theorem pairwise_midIndexOf (n k : Nat) (hk : 0 < k) :
    ((windowsOf n k).map midIndexOf).Pairwise (fun a b => a < b) := by
  rw [List.pairwise_map]
  refine List.Pairwise.imp_of_mem ?_ (pairwise_windowsOf n k hk)
  intro p q hp hq hpq
  obtain ⟨h1, _⟩ := mem_windowsOf n k hk p hp
  obtain ⟨h3, _⟩ := mem_windowsOf n k hk q hq
  simp only [midIndexOf]
  omega

/-- C19: on an equal-length input of length `n ≥ 1` with `k > 0`, every window
processed by `simplifyData` satisfies `startIdx < endIdx ≤ n` and
`startIdx ≤ midIndex < endIdx`; both slices and the access
`timestamps[midIndex]` are in range, so the loop body returns a point for every
window and `simplifyData` returns one point per window, never `none`; the
representative indices increase strictly from one point to the next. -/
theorem C19_indices_in_range (S : StdSort) (timestamps : List String) (values : List ℚ)
    (k : Nat) (hlen : timestamps.length = values.length) (hn : 1 ≤ values.length)
    (hk : 0 < k) :
    (∀ p ∈ windowsOf values.length k,
      (p.1 < p.2 ∧ p.2 ≤ values.length ∧ p.1 ≤ midIndexOf p ∧ midIndexOf p < p.2) ∧
      (slice? values p.1 p.2).isSome ∧ (slice? timestamps p.1 p.2).isSome ∧
      (timestamps[midIndexOf p]?).isSome ∧
      (processWindow S timestamps values p.1 p.2).isSome) ∧
    simplifyData S timestamps values k =
      (windowsOf values.length k).mapM (fun p => processWindow S timestamps values p.1 p.2) ∧
    (∃ out, simplifyData S timestamps values k = some out ∧
      out.length = (windowsOf values.length k).length ∧ 0 < out.length) ∧
    ((windowsOf values.length k).map midIndexOf).Pairwise (fun a b => a < b) := by
  refine ⟨?_, simplifyData_eq_mapM S timestamps values k,
    ⟨_, simplifyData_eq S timestamps values k hk (le_of_eq hlen.symm), ?_, ?_⟩,
    pairwise_midIndexOf values.length k hk⟩
  · intro p hp
    obtain ⟨h1, h2⟩ := mem_windowsOf values.length k hk p hp
    have h3 : p.2 ≤ timestamps.length := by omega
    have hmid : midIndexOf p < timestamps.length := by
      simp only [midIndexOf]; omega
    refine ⟨⟨h1, h2, ?_, ?_⟩, ?_, ?_, ?_, ?_⟩
    · simp only [midIndexOf]; omega
    · simp only [midIndexOf]; omega
    · simp [slice?, le_of_lt h1, h2]
    · simp [slice?, le_of_lt h1, h3]
    · rw [List.getElem?_eq_getElem hmid]; rfl
    · rw [processWindow_eq S timestamps values p.1 p.2 h1 h2 h3]; rfl
  · rw [List.length_map]
  · rw [List.length_map, length_windowsOf _ _ hk]
    exact numWindows_pos values.length k hn hk

theorem C19_indices_in_range_witness :
    ((["a", "b", "c", "d", "e"] : List String).length = ([1, 2, 3, 4, 5] : List ℚ).length ∧
      1 ≤ ([1, 2, 3, 4, 5] : List ℚ).length ∧ 0 < 4) ∧
    (windowsOf ([1, 2, 3, 4, 5] : List ℚ).length 4).map midIndexOf = [1, 3, 4] ∧
    ((windowsOf ([1, 2, 3, 4, 5] : List ℚ).length 4).map midIndexOf).Pairwise
      (fun a b => a < b) :=
  ⟨by decide, by decide!,
    (C19_indices_in_range insertionStdSort ["a", "b", "c", "d", "e"] [1, 2, 3, 4, 5] 4
      (by decide) (by decide) (by decide)).2.2.2⟩

/-- C20: for every non-empty window the weighted average under the weights of
`calculateWeights` lies between the minimum and the maximum of the window's
values, bounds included; hence on an equal-length input with `k > 0` the value
of every output point of `simplifyData` lies between the minimum and the
maximum of the values of its window. -/
theorem C20_average_between_min_max (S : StdSort) (timestamps : List String)
    (values : List ℚ) (k : Nat) (hlen : timestamps.length = values.length) (hk : 0 < k) :
    (∀ window : List ℚ, window ≠ [] →
      (windowMin window ∈ window ∧ ∀ v ∈ window, windowMin window ≤ v) ∧
      (windowMax window ∈ window ∧ ∀ v ∈ window, v ≤ windowMax window) ∧
      windowMin window ≤ calculateWeightedAverage window (calculateWeights S window) ∧
      calculateWeightedAverage window (calculateWeights S window) ≤ windowMax window) ∧
    ∃ out, simplifyData S timestamps values k = some out ∧
      ∀ (j : Nat) (p : Nat × Nat) (pt : String × ℚ),
        (windowsOf values.length k)[j]? = some p → out[j]? = some pt →
        windowMin (windowSlice values p) ≤ pt.2 ∧ pt.2 ≤ windowMax (windowSlice values p) := by
  have hwin : ∀ window : List ℚ, window ≠ [] →
      windowMin window ≤ calculateWeightedAverage window (calculateWeights S window) ∧
      calculateWeightedAverage window (calculateWeights S window) ≤ windowMax window :=
    fun window hne => windowAverage_bounds S window (length_pos_of_ne_nil window hne) _ _
      (windowMin_le window) (le_windowMax window)
  refine ⟨fun window hne => ⟨⟨windowMin_mem window hne, windowMin_le window⟩,
    ⟨windowMax_mem window hne, le_windowMax window⟩, hwin window hne⟩, ?_⟩
  refine ⟨_, simplifyData_eq S timestamps values k hk (le_of_eq hlen.symm), ?_⟩
  intro j p pt hp hpt
  rw [List.getElem?_map, hp] at hpt
  have hpt' : pt = windowPoint S timestamps values p := by
    simpa using hpt.symm
  subst hpt'
  have hmem : p ∈ windowsOf values.length k := List.getElem?_mem hp
  have hpos := length_windowSlice_pos values k hk p hmem
  exact hwin _ (List.ne_nil_of_length_pos hpos)

theorem C20_average_between_min_max_witness :
    ((["a", "b", "c", "d", "e"] : List String).length = ([100, 7, 8, 9, 10] : List ℚ).length ∧
      0 < 1) ∧
    windowMin [100, 7, 8, 9, 10] = 7 ∧ windowMax [100, 7, 8, 9, 10] = 100 ∧
    windowMin [100, 7, 8, 9, 10] ≤
      calculateWeightedAverage [100, 7, 8, 9, 10]
        (calculateWeights insertionStdSort [100, 7, 8, 9, 10]) ∧
    calculateWeightedAverage [100, 7, 8, 9, 10]
        (calculateWeights insertionStdSort [100, 7, 8, 9, 10]) ≤ windowMax [100, 7, 8, 9, 10] :=
  ⟨by decide, by decide!, by decide!,
    ((C20_average_between_min_max insertionStdSort ["a", "b", "c", "d", "e"]
      [100, 7, 8, 9, 10] 1 (by decide) (by decide)).1 [100, 7, 8, 9, 10] (by decide)).2.2⟩

/-! ## Rounding: where `double` arithmetic departs from exact arithmetic -/

theorem roundDouble_examples :
    roundDouble (9 / 2) = 9 / 2 ∧
    roundDouble (1 / 10) = 3602879701896397 / 2 ^ 55 ∧
    roundDouble (roundDouble (1 / 10) + roundDouble (2 / 10)) = 1351079888211149 / 2 ^ 52 ∧
    roundDouble (-(1 / 3)) = -(6004799503160661 / 2 ^ 54) ∧
    roundDouble (2 ^ 53 + 1) = 2 ^ 53 := by
  decide!

theorem sorted_strict_of_nodup (S : StdSort) (l : List DataPoint)
    (hnd : (l.map DataPoint.distance).Nodup) :
    (S.sort l).Pairwise (fun a b => a.distance > b.distance) := by
  have hnd' : ((S.sort l).map DataPoint.distance).Nodup :=
    ((S.perm l).map DataPoint.distance).nodup_iff.mpr hnd
  have hne : (S.sort l).Pairwise (fun a b => a.distance ≠ b.distance) :=
    List.pairwise_map.mp hnd'
  refine List.Pairwise.imp₂ ?_ (S.sorted l) hne
  intro a b hab hne
  have hle : b.distance ≤ a.distance := by simpa [compareByDistance] using hab
  exact lt_of_le_of_ne hle (Ne.symm hne)

theorem sort_unique_of_nodup (S T : StdSort) (l : List DataPoint)
    (hnd : (l.map DataPoint.distance).Nodup) : S.sort l = T.sort l := by
  have hanti : IsAntisymm DataPoint (fun a b => a.distance > b.distance) :=
    ⟨fun a b hab hba => absurd hab (not_lt_of_gt hba)⟩
  exact List.eq_of_perm_of_sorted ((S.perm l).trans (T.perm l).symm)
    (sorted_strict_of_nodup S l hnd) (sorted_strict_of_nodup T l hnd)

theorem calculateWeightsDouble_sort_irrelevant (S T : StdSort) (values : List ℚ)
    (hnd : ((makeDataPointsDouble values).map DataPoint.distance).Nodup) :
    calculateWeightsDouble S values = calculateWeightsDouble T values := by
  unfold calculateWeightsDouble
  rw [sort_unique_of_nodup S T _ hnd]

theorem nearTie_double_weights (S : StdSort) :
    calculateWeightsDouble S [roundDouble (9 / 2), roundDouble (31 / 10), roundDouble (19 / 5)] =
      [1 / 4, 1 / 2, 1 / 4] := by
  rw [calculateWeightsDouble_sort_irrelevant S insertionStdSort _ (by decide!)]
  decide!

theorem uniform_double_average (S : StdSort) :
    calculateWeightedAverageDouble [3, 3, 3, 3] (calculateWeightsDouble S [3, 3, 3, 3]) =
      3 + 1 / 2 ^ 51 := by
  have hdps : makeDataPointsDouble [3, 3, 3, 3] =
      [⟨0, 3, 0⟩, ⟨1, 3, 0⟩, ⟨2, 3, 0⟩, ⟨3, 3, 0⟩] := by decide!
  have hlen : ([3, 3, 3, 3] : List ℚ).length = 4 := rfl
  have hk : topPercentileDouble 4 = 1 := by decide!
  have hperm := S.perm (makeDataPointsDouble [3, 3, 3, 3])
  cases hsort : S.sort (makeDataPointsDouble [3, 3, 3, 3]) with
  | nil =>
    have := hperm.length_eq
    rw [hsort, hdps] at this
    simp at this
  | cons x rest =>
    have hx : x ∈ makeDataPointsDouble [3, 3, 3, 3] :=
      hperm.mem_iff.mp (by rw [hsort]; exact List.mem_cons_self x rest)
    have hw : calculateWeightsDouble S [3, 3, 3, 3] =
        (applyBonusDouble (List.replicate 4 1) [x]).map
          (fun w => roundDouble (w /
            (applyBonusDouble (List.replicate 4 1) [x]).foldl
              (fun s w => roundDouble (s + w)) 0)) := by
      simp only [calculateWeightsDouble, hlen, hk, hsort, List.take_succ_cons, List.take_zero]
      rfl
    rw [hw]
    rw [hdps] at hx
    simp only [List.mem_cons, List.mem_singleton, List.not_mem_nil, or_false] at hx
    rcases hx with rfl | rfl | rfl | rfl <;> decide!

/-- C11, counterexample: the uniform window `[3, 3, 3, 3]`.  In `double`
arithmetic the weights are the doubles nearest to `0.4, 0.2, 0.2, 0.2` and the
weighted average is `3 + 2^-51 = 3.0000000000000004`, not `3`. -/
theorem C11_counterexample :
    (∀ v ∈ ([3, 3, 3, 3] : List ℚ), v = 3) ∧
    calculateWeightsDouble insertionStdSort [3, 3, 3, 3] =
      [roundDouble (2 / 5), roundDouble (1 / 5), roundDouble (1 / 5), roundDouble (1 / 5)] ∧
    calculateWeightedAverageDouble [3, 3, 3, 3]
        (calculateWeightsDouble insertionStdSort [3, 3, 3, 3]) = 3 + 1 / 2 ^ 51 ∧
    calculateWeightedAverageDouble [3, 3, 3, 3]
        (calculateWeightsDouble insertionStdSort [3, 3, 3, 3]) ≠ 3 := by
  decide!

end DataProcessing
